import Mathlib

/-!
# Verification of the CVRP hybrid solver core

Shallow embedding of the repository's Python core (`src/classes/*.py`):
`Instance`, `Route`, `ClarkeWright`, `TwoOpt`, `KNeighbors` and the PBO
`Solver`'s decode / candidate-mask pruning, together with theorems that
settle the specification claims about them.

Routes are plain lists of customer indices (`Route.value`); the `_demand`
and `_cost` memo fields of the Python `Route` are transparent caches that
`append`/`remove`/`reversed`/`__add__` keep consistent, so demand and cost
are modelled as the pure derived functions `routeDemand` and `routeCost`.
Python dictionaries are modelled as association lists in insertion order,
which is what iteration over a `dict` and `sorted(...)`'s stability
observe.  Python strings handled by the decoder are modelled as `List
Char`.  The two loops the source runs until a fixpoint (`reduce_routes`,
`TwoOpt.improve_routes`) are written with an explicit iteration budget
(`fuel`) that the call sites instantiate with a provably sufficient bound,
so that every definition computes by reduction.
-/

namespace CVRP

/-- Problem data, as parsed into `Instance` (`src/classes/instance.py`):
dimension `n` with depot `0`, capacity, demand vector and distance matrix.
Demands and distances are non-negative integers per the data model, so
they are modelled as `Nat`-valued functions. -/
structure CVRPInstance where
  dimension : Nat
  capacity : Nat
  demands : Nat → Nat
  distances : Nat → Nat → Nat

/-- The data-model invariants of `Instance`: zero diagonal, symmetry,
zero depot demand, and every customer demand at most the capacity. -/
def CVRPInstance.Wellformed (c : CVRPInstance) : Prop :=
  (∀ i, c.distances i i = 0) ∧
  (∀ i j, c.distances i j = c.distances j i) ∧
  c.demands 0 = 0 ∧
  (∀ i, 1 ≤ i → i < c.dimension → c.demands i ≤ c.capacity)

/-- `Route.calculate_demand`: sum of the demands of the customers. -/
def routeDemand (c : CVRPInstance) (r : List Nat) : Nat :=
  (r.map c.demands).sum

/-- Helper of `routeCost`: cost of the remaining legs after `prev`. -/
def costTail (c : CVRPInstance) (prev : Nat) : List Nat → Nat
  | [] => c.distances 0 prev
  | y :: ys => c.distances prev y + costTail c y ys

/-- `Route.calculate_cost`: depot leg to the first customer, consecutive
legs, and the leg from the last customer back to the depot.  The Python
code indexes `value[0]`/`value[-1]`, so routes are non-empty there; the
empty case is given cost 0. -/
def routeCost (c : CVRPInstance) : List Nat → Nat
  | [] => 0
  | x :: xs => c.distances 0 x + costTail c x xs

/-- Python `range(a, b)` as a list. -/
def pyRange (a b : Nat) : List Nat := List.range' a (b - a)

/-- One step of a stable insertion sort: `x` is placed before the first
element `y` of the (already sorted) list with `f x y = true`. -/
def insertS (f : α → α → Bool) (x : α) : List α → List α
  | [] => [x]
  | y :: ys => if f x y then x :: y :: ys else y :: insertS f x ys

/-- Stable sort.  Elements are inserted from right to left, so an element
never jumps in front of an `f`-tied element that preceded it: this models
the behaviour of Python's stable `list.sort`/`sorted` (with `f x y`
deciding "`x` may come before `y`"). -/
def sortS (f : α → α → Bool) (l : List α) : List α := l.foldr (insertS f) []

/-! ## ClarkeWright: savings -/

/-- A savings entry `(s, i, j)` of `ClarkeWright.load_savings`. -/
abbrev SEntry := Int × Nat × Nat

/-- The unsorted savings list: for `i` in `range(1, n)` and `j` in
`range(i+1, n)`, the entry `(D[0,i] + D[0,j] - D[i,j], i, j)`. -/
def savingsEnum (c : CVRPInstance) : List SEntry :=
  (pyRange 1 c.dimension).flatMap fun i =>
    (pyRange (i + 1) c.dimension).map fun j =>
      ((c.distances 0 i : Int) + c.distances 0 j - c.distances i j, i, j)

/-- `self.savings.sort(key=lambda x: x[0], reverse=True)`: stable sort,
descending on the saving value. -/
def loadSavings (c : CVRPInstance) : List SEntry :=
  sortS (fun a b => decide (b.1 ≤ a.1)) (savingsEnum c)

/-- Strict lexicographic order on the `(i, j)` components of two savings
entries. -/
def pairLex (a b : SEntry) : Prop :=
  a.2.1 < b.2.1 ∨ (a.2.1 = b.2.1 ∧ a.2.2 < b.2.2)

/-- The order the sorted savings list is claimed to satisfy: descending
saving, ties broken by ascending lexicographic `(i, j)`. -/
def savingsOrder (a b : SEntry) : Prop :=
  b.1 < a.1 ∨ (a.1 = b.1 ∧ pairLex a b)

/-! ## Python dictionaries as association lists

`ClarkeWright.routes` is a Python `dict[int, Route]`.  It is modelled as a
`List (Nat × List Nat)` in insertion order: iteration (`for i in d`,
`sorted(d, key=...)`) visits keys in insertion order; assigning to an
existing key keeps its position; `del` removes the entry; assigning to a
fresh key appends at the end. -/

abbrev Routes := List (Nat × List Nat)

/-- `d[k]` lookup (first entry with key `k`). -/
def dictGet (rs : Routes) (k : Nat) : Option (List Nat) :=
  (rs.find? (fun e => e.1 == k)).map (·.2)

/-- `d[k] = v` for a key already present: replace in place. -/
def dictSet (rs : Routes) (k : Nat) (v : List Nat) : Routes :=
  rs.map (fun e => if e.1 = k then (k, v) else e)

/-- `del d[k]`. -/
def dictDel (rs : Routes) (k : Nat) : Routes :=
  rs.filter (fun e => ¬ e.1 == k)

/-- `d[k] = v` for a key not present: append at the end. -/
def dictAppend (rs : Routes) (k : Nat) (v : List Nat) : Routes :=
  rs ++ [(k, v)]

/-- The keys of the dictionary in iteration order. -/
def dictKeys (rs : Routes) : List Nat := rs.map (·.1)

/-- All customers over all routes, in dictionary iteration order. -/
def allCustomers (rs : Routes) : List Nat := rs.flatMap (·.2)

/-- Keys are pairwise distinct (always true of a Python dict). -/
def KeysNodup (rs : Routes) : Prop := (dictKeys rs).Nodup

/-! ## ClarkeWright: routes, merge pass, reduction -/

/-- `ClarkeWright.load_routes`: one singleton route per customer, keyed by
the customer. -/
def initRoutes (c : CVRPInstance) : Routes :=
  (pyRange 1 c.dimension).map (fun k => (k, [k]))

/-- One iteration of `ClarkeWright.combine_routes` for the savings entry
`(saving, i, j)`.  The saving value is never inspected: the body uses only
`i` and `j`.  Python's `route[0] == i` / `route[-1] == j` are
`head? = some i` / `getLast? = some j` (routes are non-empty in every
reachable state).  The two conditional reversals are written back into the
dictionary before the endpoint test, exactly as in the source; writing an
unreversed route back is a no-op, so the write is done unconditionally. -/
def combineStep (c : CVRPInstance) (rs : Routes) : SEntry → Routes
  | (_, i, j) =>
    match dictGet rs i, dictGet rs j with
    | some ri0, some rj0 =>
      if ri0 = rj0 then rs
      else
        let ri := if ri0.head? = some i then ri0.reverse else ri0
        let rj := if rj0.getLast? = some j then rj0.reverse else rj0
        let rs1 := dictSet (dictSet rs i ri) j rj
        if ri.getLast? ≠ some i ∨ rj.head? ≠ some j then rs1
        else if c.capacity < routeDemand c ri + routeDemand c rj then rs1
        else dictDel (dictSet rs1 i (ri ++ rj)) j
    | _, _ => rs

/-- `ClarkeWright.combine_routes`: fold the step over the sorted savings. -/
def combineRoutes (c : CVRPInstance) (rs : Routes) : Routes :=
  (loadSavings c).foldl (combineStep c) rs

/-- Length of the route at key `k` (`len(self.routes[i])`). -/
def routeLenKey (rs : Routes) (k : Nat) : Nat :=
  ((dictGet rs k).getD []).length

/-- Demand of the route at key `k` (`self.routes[i].demand`). -/
def routeDemandKey (c : CVRPInstance) (rs : Routes) (k : Nat) : Nat :=
  routeDemand c ((dictGet rs k).getD [])

/-- `sorted(self.routes, key=lambda i: len(self.routes[i]))`: dict keys in
insertion order, stably sorted by route length. -/
def sortedByLen (rs : Routes) : List Nat :=
  sortS (fun a b => decide (routeLenKey rs a ≤ routeLenKey rs b)) (dictKeys rs)

/-- `sorted(self.routes, key=lambda i: self.routes[i].demand)`: dict keys
in insertion order, stably sorted by route demand. -/
def sortedByDemand (c : CVRPInstance) (rs : Routes) : List Nat :=
  sortS (fun a b => decide (routeDemandKey c rs a ≤ routeDemandKey c rs b)) (dictKeys rs)

/-- The inner loop of `reduce_routes` that tries to append `cust` to the
first route, in the given candidate-key order, whose load permits it.
The `none` fallback of the lookup is unreachable: candidates are snapshot
keys of `rs`. -/
def addCustomer (c : CVRPInstance) (rs : Routes) (cust : Nat) : List Nat → Option Routes
  | [] => none
  | k :: ks =>
    match dictGet rs k with
    | none => none
    | some r =>
      if c.capacity < routeDemand c r + c.demands cust then addCustomer c rs cust ks
      else some (dictSet rs k (r ++ [cust]))

/-- The middle loop of `reduce_routes`: place the customers of the removed
route one by one (candidate order recomputed from the current state).  The
boolean is Python's `remaining_customer` flag; on `true` the returned
state contains the partial insertions made so far. -/
def addCustomersLoop (c : CVRPInstance) : Routes → List Nat → Routes × Bool
  | rs, [] => (rs, false)
  | rs, cust :: rest =>
    match addCustomer c rs cust (sortedByDemand c rs) with
    | some rs' => addCustomersLoop c rs' rest
    | none => (rs, true)

/-- Python `list.remove`: drop the first occurrence (no-op when absent;
the source guards the call with `customer in route`, which makes the
absent case a no-op there as well). -/
def listRemove : List Nat → Nat → List Nat
  | [], _ => []
  | x :: xs, cust => if x = cust then xs else x :: listRemove xs cust

/-- `for route in self.routes: if customer in ...: remove(customer)`. -/
def removeCustomerAll (rs : Routes) (cust : Nat) : Routes :=
  rs.map (fun e => (e.1, listRemove e.2 cust))

/-- The restoration branch of `reduce_routes`: remove every customer of
the tentatively removed route from all routes, then re-add the removed
route (its key was deleted, so the assignment appends at the end). -/
def restoreRoutes (rs2 : Routes) (rk : Nat) (rroute : List Nat) : Routes :=
  dictAppend (rroute.foldl removeCustomerAll rs2) rk rroute

/-- The outer `for remotion in sorted(...)` loop of one `while` iteration:
try to eliminate each candidate route in turn; `none` means Python's
`route_removed` stayed `False`.  The `none` lookup fallback is unreachable
(candidates are snapshot keys). -/
def tryRemotions (c : CVRPInstance) : Routes → List Nat → Option Routes
  | _, [] => none
  | rs, rk :: rest =>
    match dictGet rs rk with
    | none => tryRemotions c rs rest
    | some rroute =>
      match addCustomersLoop c (dictDel rs rk) rroute with
      | (rs2, false) => some rs2
      | (rs2, true) => tryRemotions c (restoreRoutes rs2 rk rroute) rest

/-- `ClarkeWright.reduce_routes`: while more than `K` routes remain,
eliminate one route or raise.  `fuel` bounds the number of `while`
iterations; each successful iteration removes exactly one route, so the
initial route count (the call-site value) is always sufficient and the
`out of fuel` branch is unreachable from `clarkeWrightRun`. -/
def reduceGo (c : CVRPInstance) (K : Nat) : Nat → Routes → Except String Routes
  | fuel, rs =>
    if rs.length ≤ K then .ok rs
    else
      match fuel with
      | 0 => .error ("out of fuel")
      | fuel' + 1 =>
        match tryRemotions c rs (sortedByLen rs) with
        | none => .error ("Cannot reduce the number of routes")
        | some rs' => reduceGo c K fuel' rs'

/-- `ClarkeWright.run`: savings, initial routes, merge pass, reduction. -/
def clarkeWrightRun (c : CVRPInstance) (K : Nat) : Except String Routes :=
  let rs := combineRoutes c (initRoutes c)
  reduceGo c K rs.length rs

/-! ## TwoOpt -/

/-- `Route.reversed(i, j+1)`: copy of the route with the closed segment
`[i..j]` reversed (Python slice assignment `route[i:j+1] = route[i:j+1][::-1]`). -/
def reverseSegment (r : List Nat) (i j : Nat) : List Nat :=
  r.take i ++ ((r.drop i).take (j + 1 - i)).reverse ++ r.drop (j + 1)

/-- The scan order of one 2-opt pass: `i in range(len-1)`, `j in
range(i+1, len)`. -/
def pairList (n : Nat) : List (Nat × Nat) :=
  (List.range (n - 1)).flatMap fun i => (pyRange (i + 1) n).map fun j => (i, j)

/-- The body of one 2-opt scan step: `new_route = route.reversed(i, j+1)`,
kept when strictly cheaper than the best so far (which sets `improved`). -/
def twoOptStep (c : CVRPInstance) (r : List Nat) (acc : List Nat × Bool) (p : Nat × Nat) :
    List Nat × Bool :=
  let nr := reverseSegment r p.1 p.2
  if routeCost c nr < routeCost c acc.1 then (nr, true) else acc

/-- One pass of `TwoOpt.improve_routes` over route `r`: keep the best
improving reversal candidate; the boolean is Python's `improved` flag. -/
def twoOptPass (c : CVRPInstance) (r : List Nat) : List Nat × Bool :=
  (pairList r.length).foldl (twoOptStep c r) (r, false)

/-- The `while True` loop of `TwoOpt.improve_routes` for one route: repeat
passes until one finds no improvement.  Each improving pass strictly
decreases the (non-negative integer) route cost, so `routeCost c r + 1`
iterations always reach the fixpoint; `fuel` is instantiated with that
bound at the call site. -/
def twoOptLoop (c : CVRPInstance) : Nat → List Nat → List Nat
  | 0, r => r
  | fuel + 1, r =>
    let pr := twoOptPass c r
    if pr.2 then twoOptLoop c fuel pr.1 else r

/-- `TwoOpt.run` / `improve_routes`: improve each route independently. -/
def improveRoutes (c : CVRPInstance) (rs : Routes) : Routes :=
  rs.map (fun e => (e.1, twoOptLoop c (routeCost c e.2 + 1) e.2))

/-! ## KNeighbors -/

/-- Candidate matrices are integer matrices with the `-1` sentinel. -/
abbrev Mat := Nat → Nat → Int

/-- `matrix[i, j] = v`. -/
def matSet (m : Mat) (i j : Nat) (v : Int) : Mat :=
  fun a b => if a = i ∧ b = j then v else m a b

/-- `matrix[i, j] = matrix[j, i] = v`. -/
def symSet (m : Mat) (i j : Nat) (v : Int) : Mat :=
  matSet (matSet m i j v) j i v

/-- `np.full((n, n), -1)` followed by `matrix[i, i] = 0` for `i` in
`range(n)`. -/
def loadMatrixBase (n : Nat) : Mat :=
  (List.range n).foldl (fun m i => matSet m i i 0) (fun _ _ => -1)

/-- The `for i in range(len(route) - 1)` loop writing consecutive edges. -/
def consecWrites (c : CVRPInstance) : Mat → List Nat → Mat
  | m, a :: b :: rest => consecWrites c (symSet m a b (c.distances a b)) (b :: rest)
  | m, _ => m

/-- The `for customer in route: for neighbor in neighbors(customer)` loop. -/
def neighborWrites (c : CVRPInstance) (nbrs : Nat → List Nat) (m : Mat) (r : List Nat) : Mat :=
  r.foldl (fun m cust =>
    (nbrs cust).foldl (fun m v => symSet m cust v (c.distances cust v)) m) m

/-- One iteration of `KNeighbors.load_matrices` for route `r`: base matrix,
first depot edge, consecutive edges, last depot edge, then the k-neighbor
edges of every customer.  `nbrs` is the `nearest_neighbors` method, passed
as a function. -/
def loadMatrix (c : CVRPInstance) (nbrs : Nat → List Nat) (r : List Nat) : Mat :=
  match r with
  | [] => loadMatrixBase c.dimension
  | x :: _ =>
    let m0 := loadMatrixBase c.dimension
    let m1 := symSet m0 0 x (c.distances 0 x)
    let m2 := consecWrites c m1 r
    let m3 := symSet m2 0 (r.getLastD 0) (c.distances 0 (r.getLastD 0))
    neighborWrites c nbrs m3 r

/-- The consecutive pairs `(r[t], r[t+1])` of a route, in order. -/
def consecPairs : List Nat → List (Nat × Nat)
  | a :: b :: rest => (a, b) :: consecPairs (b :: rest)
  | _ => []

/-- The positions `load_matrices` writes for route `r` (both orientations
of: the two depot-boundary edges, every consecutive edge, and every
`(customer, neighbor)` edge).  Entries outside this list and off the
diagonal keep the `-1` sentinel. -/
def populatedPairs (r : List Nat) (nbrs : Nat → List Nat) : List (Nat × Nat) :=
  match r with
  | [] => []
  | x :: _ =>
    [(0, x), (x, 0)] ++
    (consecPairs r).flatMap (fun p => [(p.1, p.2), (p.2, p.1)]) ++
    [(0, r.getLastD 0), (r.getLastD 0, 0)] ++
    r.flatMap (fun cust => (nbrs cust).flatMap (fun v => [(cust, v), (v, cust)]))

/-- Ascending lexicographic comparison of `(weight, node)` pairs: how
Python compares the tuples produced by `sorted(zip(weights, neighbors))`. -/
def pairLeB (a b : Nat × Nat) : Bool :=
  decide (a.1 < b.1 ∨ (a.1 = b.1 ∧ a.2 ≤ b.2))

/-- `KNeighbors.nearest_neighbors_mst`: the MST neighbors of the customer
(given as `(edge weight, node)` pairs), sorted ascending by weight then
node, truncated to `k`. -/
def nearestNeighborsMst (k : Nat) (adj : List (Nat × Nat)) : List Nat :=
  ((sortS pairLeB adj).map (·.2)).take k

/-- `KNeighbors.nearest_neighbors_mat`: all nodes paired with the
customer's distance row, sorted, the customer itself filtered out,
truncated to `k`. -/
def nearestNeighborsMat (k n : Nat) (row : Nat → Nat) (cust : Nat) : List Nat :=
  ((((sortS pairLeB ((List.range n).map (fun j => (row j, j)))).map (·.2)).filter
    (fun x => x != cust)).take k)

/-- The fallback-extension loop of `KNeighbors.nearest_neighbors`: append
unseen matrix candidates until the list reaches length `k` (the length
test runs after every iteration, appended or not, as in the source). -/
def extendLoop (k : Nat) : List Nat → List Nat → List Nat
  | nbs, [] => nbs
  | nbs, x :: xs =>
    let nbs' := if x ∈ nbs then nbs else nbs ++ [x]
    if nbs'.length = k then nbs' else extendLoop k nbs' xs

/-- `KNeighbors.nearest_neighbors`: MST neighbors, extended from the
distance matrix if short, error if still short.  `adj` is the customer's
MST adjacency (weight, node) and `row` its distance-matrix row. -/
def nearestNeighbors (k n : Nat) (adj : List (Nat × Nat)) (row : Nat → Nat) (cust : Nat) :
    Except String (List Nat) :=
  let nbs := nearestNeighborsMst k adj
  let nbs := if nbs.length < k then extendLoop k nbs (nearestNeighborsMat k n row cust) else nbs
  if nbs.length < k then .error ("Cannot find all neighbors") else .ok nbs

/-! ## Solver: decode and candidate-mask pruning

Python strings are modelled as `List Char` so that every operation is
structurally recursive: `line[2:]` is `List.drop 2`, the single-character
`str.replace(ch, '')` calls are `removeChar`, `str.split()` is `splitWs`,
`int(...)` is `parseInt?` (sign handling as in Python for the tokens the
protocol produces), and `str.startswith` is `strBegins`.  `float(line[2:])`
for the `o`-lines is modelled by keeping the raw text: the claims under
study do not concern the numeric value of the optimum. -/

abbrev PStr := List Char

/-- `s.startswith(pre)`. -/
def strBegins : (pre s : PStr) → Bool
  | [], _ => true
  | _ :: _, [] => false
  | p :: ps, c :: cs => p == c && strBegins ps cs

/-- `s.replace(ch, '')` for a single-character pattern. -/
def removeChar (s : PStr) (ch : Char) : PStr :=
  s.filter (fun a => ¬ a == ch)

/-- Helper of `splitWs` carrying the current (reversed) token. -/
def splitWsAux : PStr → PStr → List PStr
  | [], cur => if cur.isEmpty then [] else [cur.reverse]
  | ch :: cs, cur =>
    if ch.isWhitespace then
      if cur.isEmpty then splitWsAux cs [] else cur.reverse :: splitWsAux cs []
    else splitWsAux cs (ch :: cur)

/-- Python `str.split()`: split on whitespace runs, dropping empties. -/
def splitWs (s : PStr) : List PStr := splitWsAux s []

/-- Parse a digit string into a number. -/
def parseNatAux : PStr → Nat → Option Nat
  | [], acc => some acc
  | ch :: cs, acc =>
    if ch.isDigit then parseNatAux cs (acc * 10 + (ch.toNat - 48)) else none

/-- Python `int(...)` on the tokens the solver protocol produces: an
optional minus sign followed by digits. -/
def parseInt? : PStr → Option Int
  | [] => none
  | '-' :: rest =>
    if rest.isEmpty then none else (parseNatAux rest 0).map (fun n => -(n : Int))
  | l => (parseNatAux l 0).map (fun n => (n : Int))

/-- `[int(v) for v in line[2:].replace('x', '').replace('c', '').split()]`. -/
def parseTokens (line : PStr) : Option (List Int) :=
  (splitWs (removeChar (removeChar (line.drop 2) 'x') 'c')).mapM parseInt?

/-- The first loop of `Solver.decode`: raise on `s UNSATISFIABLE`, record
the (last) `o`-line, accumulate the integers of every `v`-line.  A token
`int(...)` failure is Python's `ValueError`. -/
def decodeLines : List PStr → Option PStr × List Int → Except String (Option PStr × List Int)
  | [], acc => .ok acc
  | line :: rest, acc =>
    if strBegins (("s UNSATISFIABLE").data) line then .error ("The model is unsatisfiable")
    else
      let acc1 := if strBegins (("o").data) line then (some (line.drop 2), acc.2) else acc
      if strBegins (("v").data) line then
        match parseTokens line with
        | some vs => decodeLines rest (acc1.1, acc1.2 ++ vs)
        | none => .error ("ValueError")
      else decodeLines rest acc1

/-- `self.mapping_inv` lookup. -/
def lookupInv (mi : List (Int × PStr)) (k : Int) : Option PStr :=
  (mi.find? (fun e => e.1 == k)).map (·.2)

/-- The second loop of `Solver.decode`: keep, in order, the mapped
variable names that start with `w_`. -/
def collectRoutes (mi : List (Int × PStr)) (model : List Int) : List PStr :=
  model.foldl
    (fun rts item =>
      match lookupInv mi item with
      | none => rts
      | some var => if strBegins (("w_").data) var then rts ++ [var] else rts)
    []

/-- `Solver.decode`: both loops; the result is the recorded optimum text
and `self.routes` (a list of `w_i_j_v` variable-name strings — no chain
walking or route reconstruction is performed). -/
def decode (mi : List (Int × PStr)) (output : List PStr) :
    Except String (Option PStr × List PStr) :=
  match decodeLines output (none, []) with
  | .error e => .error e
  | .ok (opt, model) => .ok (opt, collectRoutes mi model)

/-- Specification-level description of the accumulated `v`-line integers:
the concatenation of the parsed tokens of every `v`-line, in order. -/
def vTokens (lines : List PStr) : List Int :=
  (lines.filter (fun l => strBegins (("v").data) l)).flatMap
    (fun l => (parseTokens l).getD [])

/-- Specification-level description of one item of the second decode loop. -/
def wName (mi : List (Int × PStr)) (item : Int) : Option PStr :=
  match lookupInv mi item with
  | some var => if strBegins (("w_").data) var then some var else none
  | none => none

/-- The `# Set false the removed customers` loop of `Solver.load_model`:
the ordered list of `(v, i, j)` for which the unit constraint
`1 w_{i,j,v} = 0` is emitted.  The loop emits unless the candidate-matrix
entry differs from both `0` and `-1`. -/
def setFalseTriples (mats : List Mat) (n : Nat) : List (Nat × Nat × Nat) :=
  (List.range mats.length).flatMap fun v =>
    (List.range n).flatMap fun i =>
      (List.range n).filterMap fun j =>
        if (mats.getD v (fun _ _ => -1)) i j ≠ 0 ∧ (mats.getD v (fun _ _ => -1)) i j ≠ -1
        then none
        else some (v, i, j)

/-! ## Concrete example instances (used by counterexamples and witnesses) -/

/-- Spec scenario (a): `n = 3`, `Q = 10`, demands `[0,4,5]`,
`D = [[0,3,5],[3,0,4],[5,4,0]]`. -/
def exA : CVRPInstance where
  dimension := 3
  capacity := 10
  demands := fun i => if i = 1 then 4 else if i = 2 then 5 else 0
  distances := fun i j =>
    if i = j then 0
    else if (i = 0 ∧ j = 1) ∨ (i = 1 ∧ j = 0) then 3
    else if (i = 0 ∧ j = 2) ∨ (i = 2 ∧ j = 0) then 5
    else if (i = 1 ∧ j = 2) ∨ (i = 2 ∧ j = 1) then 4
    else 0

/-- An instance whose single savings value is negative:
`D[0,1] = D[0,2] = 1`, `D[1,2] = 5`, so `s = 1 + 1 - 5 = -3`. -/
def exNeg : CVRPInstance where
  dimension := 3
  capacity := 10
  demands := fun i => if i = 0 then 0 else 1
  distances := fun i j =>
    if i = j then 0
    else if (i = 1 ∧ j = 2) ∨ (i = 2 ∧ j = 1) then 5
    else 1

/-- An instance with a zero off-diagonal distance `D[1,2] = 0` (legal:
distances are only required to be non-negative, symmetric, zero on the
diagonal). -/
def exZero : CVRPInstance where
  dimension := 3
  capacity := 10
  demands := fun i => if i = 0 then 0 else 1
  distances := fun i j =>
    if i = j then 0
    else if (i = 1 ∧ j = 2) ∨ (i = 2 ∧ j = 1) then 0
    else 7

/-- Neighbor lists for `exZero`'s route `[1, 2]` (k = 1). -/
def exZeroNbrs : Nat → List Nat :=
  fun x => if x = 1 then [2] else if x = 2 then [1] else []

/-- Instance for the reduction-ordering counterexample: route `{2,3}` has
demand 4 but radial load 20; route `{4,5}` has demand 6 but radial load 2. -/
def exRad : CVRPInstance where
  dimension := 6
  capacity := 10
  demands := fun i =>
    if i = 1 then 1 else if i = 2 then 2 else if i = 3 then 2
    else if i = 4 then 5 else if i = 5 then 1 else 0
  distances := fun i j =>
    if i = j then 0
    else if (i = 0 ∧ (j = 2 ∨ j = 3)) ∨ (j = 0 ∧ (i = 2 ∨ i = 3)) then 10
    else 1

/-- The route state fed to the reduction in the ordering counterexample. -/
def exRadRoutes : Routes := [(1, [1]), (2, [2, 3]), (4, [4, 5])]

/-- Spec-level radial load of a route: `Σ D[c',0]` over its customers
(this is the candidate ordering the specification asserts; the code sorts
by route demand instead). -/
def radialSum (c : CVRPInstance) (r : List Nat) : Nat :=
  (r.map (fun x => c.distances x 0)).sum

/-- Instance for the restore/error witness: two customers whose demands
make any insertion impossible. -/
def exTight : CVRPInstance where
  dimension := 3
  capacity := 10
  demands := fun i => if i = 0 then 0 else 6
  distances := fun i j => if i = j then 0 else 1

/-- The route state for the restore/error witness. -/
def exTightRoutes : Routes := [(1, [1]), (2, [2])]

/-- A literal→name mapping as `load_model` would allocate it for a small
instance (`n = 3`, one vehicle): only the variables needed below. -/
def exMi : List (Int × PStr) :=
  [(1, ("w_0_1_0").data), (2, ("w_1_0_0").data), (3, ("t_1_0").data)]

/-- A solver output whose positive `w` literal selects only the arc
`0 → 1` of vehicle `0`: the return arc `1 → 0` is negative and customer
`2` appears nowhere, so the arc set is a broken chain covering 1 of the
`n − 1 = 2` customers. -/
def exOut : List PStr := [("o 12").data, ("v x1 -x2 x3").data]

/-! ## Theorems: the stable sort -/

theorem mem_insertS (f : α → α → Bool) (x : α) (l : List α) (z : α) :
    z ∈ insertS f x l ↔ z = x ∨ z ∈ l := by
  induction l with
  | nil => simp [insertS]
  | cons y ys ih =>
    by_cases h : f x y = true
    · simp [insertS, h]
    · simp only [insertS, if_neg h, List.mem_cons, ih]
      tauto

theorem insertS_perm (f : α → α → Bool) (x : α) (l : List α) :
    (insertS f x l).Perm (x :: l) := by
  induction l with
  | nil => simp [insertS]
  | cons y ys ih =>
    by_cases h : f x y = true
    · simp [insertS, h]
    · simp only [insertS, if_neg h]
      exact (ih.cons y).trans (List.Perm.swap x y ys)

theorem sortS_perm (f : α → α → Bool) (l : List α) : (sortS f l).Perm l := by
  induction l with
  | nil => rfl
  | cons x xs ih =>
    exact (insertS_perm f x (sortS f xs)).trans (ih.cons x)

/-- Sortedness with stability.  If the input is `Pairwise S` (the original
order) and `f` is a total transitive boolean preorder, then the output is
pairwise ordered by `f`, and `f`-ties keep the original `S` order. -/
theorem insertS_pairwise (f : α → α → Bool) (S : α → α → Prop)
    (htot : ∀ a b, f a b = true ∨ f b a = true)
    (htr : ∀ a b c, f a b = true → f b c = true → f a c = true)
    (x : α) (l : List α)
    (hl : l.Pairwise (fun a b => f a b = true ∧ (f b a = true → S a b)))
    (hx : ∀ y ∈ l, S x y) :
    (insertS f x l).Pairwise (fun a b => f a b = true ∧ (f b a = true → S a b)) := by
  induction l with
  | nil => simp [insertS]
  | cons y ys ih =>
    rcases List.pairwise_cons.mp hl with ⟨hy, hys⟩
    by_cases h : f x y = true
    · simp only [insertS, if_pos h]
      refine List.pairwise_cons.mpr ⟨?_, hl⟩
      intro z hz
      rcases List.mem_cons.mp hz with hz | hz
      · subst hz
        exact ⟨h, fun _ => hx z (by simp)⟩
      · rcases hy z hz with ⟨hyz, _⟩
        exact ⟨htr x y z h hyz, fun _ => hx z (by simp [hz])⟩
    · simp only [insertS, if_neg h]
      refine List.pairwise_cons.mpr ⟨?_, ?_⟩
      · intro z hz
        rcases (mem_insertS f x ys z).mp hz with hz | hz
        · subst hz
          rcases htot y z with hyz | hzy
          · exact ⟨hyz, fun hzy => absurd hzy h⟩
          · exact absurd hzy h
        · exact hy z hz
      · exact ih hys (fun z hz => hx z (by simp [hz]))

theorem sortS_pairwise (f : α → α → Bool) (S : α → α → Prop)
    (htot : ∀ a b, f a b = true ∨ f b a = true)
    (htr : ∀ a b c, f a b = true → f b c = true → f a c = true)
    (l : List α) (hl : l.Pairwise S) :
    (sortS f l).Pairwise (fun a b => f a b = true ∧ (f b a = true → S a b)) := by
  induction l with
  | nil => simp [sortS]
  | cons x xs ih =>
    rcases List.pairwise_cons.mp hl with ⟨hx, hxs⟩
    exact insertS_pairwise f S htot htr x (sortS f xs) (ih hxs)
      (fun y hy => hx y ((sortS_perm f xs).mem_iff.mp hy))

/-! ## Theorems: C9 (savings list) -/

theorem savingsEnum_mem (c : CVRPInstance) (s : Int) (i j : Nat) :
    ((s, i, j) : SEntry) ∈ savingsEnum c ↔
      (1 ≤ i ∧ i < j ∧ j < c.dimension ∧
        s = (c.distances 0 i : Int) + c.distances 0 j - c.distances i j) := by
  simp only [savingsEnum, pyRange, List.mem_flatMap, List.mem_map,
    List.mem_range'_1, Prod.mk.injEq]
  constructor
  · rintro ⟨i', ⟨hi1, hi2⟩, j', ⟨hj1, hj2⟩, hs, hij⟩
    obtain ⟨hi, hj⟩ := hij
    subst hi; subst hj
    exact ⟨hi1, by omega, by omega, hs.symm⟩
  · rintro ⟨h1, h2, h3, hs⟩
    exact ⟨i, ⟨h1, by omega⟩, j, ⟨by omega, by omega⟩, hs.symm, rfl, rfl⟩

theorem savingsEnum_pairwise (c : CVRPInstance) :
    (savingsEnum c).Pairwise pairLex := by
  rw [savingsEnum, List.pairwise_flatMap]
  constructor
  · intro i _
    rw [List.pairwise_map]
    exact (List.pairwise_lt_range' _ _).imp (fun h => Or.inr ⟨rfl, h⟩)
  · refine (List.pairwise_lt_range' _ _).imp ?_
    intro i i' hii x hx y hy
    simp only [List.mem_map] at hx hy
    obtain ⟨j, _, hj⟩ := hx
    obtain ⟨j', _, hj'⟩ := hy
    subst hj; subst hj'
    exact Or.inl hii

/-- C9, claim theorem.  The savings list contains exactly one entry
`(s, i, j)` with `s = D[0,i] + D[0,j] − D[i,j]` for every pair
`1 ≤ i < j < n` (it is a permutation of the enumeration of those pairs,
which lists each pair once), and after sorting the entries are in
descending order of `s`, with ties broken by ascending lexicographic
`(i, j)`. -/
theorem load_savings_spec (c : CVRPInstance) :
    (loadSavings c).Perm (savingsEnum c) ∧
    (∀ s i j, ((s, i, j) : SEntry) ∈ savingsEnum c ↔
      (1 ≤ i ∧ i < j ∧ j < c.dimension ∧
        s = (c.distances 0 i : Int) + c.distances 0 j - c.distances i j)) ∧
    (loadSavings c).Pairwise savingsOrder := by
  refine ⟨sortS_perm _ _, savingsEnum_mem c, ?_⟩
  have h := sortS_pairwise (fun a b : SEntry => decide (b.1 ≤ a.1)) pairLex
    (fun a b => by simpa using le_total b.1 a.1)
    (fun a b c hab hbc => by
      simp only [decide_eq_true_eq] at *
      omega)
    (savingsEnum c) (savingsEnum_pairwise c)
  refine h.imp ?_
  intro a b ⟨h1, h2⟩
  simp only [decide_eq_true_eq] at h1 h2
  rcases lt_or_eq_of_le h1 with h | h
  · exact Or.inl h
  · exact Or.inr ⟨h.symm, h2 (le_of_eq h.symm)⟩

/-- C9, witness: the savings-list theorem applied to a concrete instance. -/
theorem load_savings_spec_witness :
    (loadSavings exNeg).Perm (savingsEnum exNeg) ∧
    ((((-3 : Int), 1, 2) : SEntry) ∈ savingsEnum exNeg ↔
      (1 ≤ 1 ∧ 1 < 2 ∧ 2 < exNeg.dimension ∧
        (-3 : Int) = (exNeg.distances 0 1 : Int) + exNeg.distances 0 2 - exNeg.distances 1 2)) ∧
    (loadSavings exNeg).Pairwise savingsOrder :=
  ⟨(load_savings_spec exNeg).1, (load_savings_spec exNeg).2.1 (-3) 1 2,
    (load_savings_spec exNeg).2.2⟩

/-! ## Theorems: C4 (negative savings are not skipped) -/

/-- C4, counterexample.  On `exNeg` the only savings entry has saving
`-3 < 0`, yet the merge pass merges the two routes: the route collection
is modified by a negative-saving entry, contradicting the claim that such
entries are skipped without modifying any route. -/
theorem negative_saving_merge_counterexample :
    loadSavings exNeg = [(-3, 1, 2)] ∧
    initRoutes exNeg = [(1, [1]), (2, [2])] ∧
    combineRoutes exNeg (initRoutes exNeg) = [(1, [1, 2])] := by
  exact ⟨by decide, by decide, by decide⟩

/-- C4, amended claim theorem.  The merge pass iterates the sorted savings
in order (`combineRoutes` is the fold of `combineStep`), and the step is
independent of the saving value: an entry `(s, i, j)` is processed
identically whatever `s` is — there is no `s ≥ 0` filter, so
negative-saving entries can reverse and merge routes exactly like
non-negative ones. -/
theorem combine_step_sign_independent (c : CVRPInstance) (rs : Routes)
    (s t : Int) (i j : Nat) :
    combineStep c rs (s, i, j) = combineStep c rs (t, i, j) ∧
    combineRoutes c rs = (loadSavings c).foldl (combineStep c) rs :=
  ⟨rfl, rfl⟩

/-! ## Theorems: C3 (candidate-mask pruning) -/

/-- C3, counterexample.  On `exZero`, the candidate matrix of route
`[1, 2]` has the non-negative entry `M[1,2] = 0` (the true distance of a
consecutive route edge), yet the pruning loop emits the unit constraint
`w_{1,2,0} = 0` for it — the constraint is not emitted "exactly when the
entry equals −1". -/
theorem prune_zero_counterexample :
    (loadMatrix exZero exZeroNbrs [1, 2]) 1 2 = 0 ∧ (1 : Nat) ≠ 2 ∧
    (0, 1, 2) ∈ setFalseTriples [loadMatrix exZero exZeroNbrs [1, 2]] 3 := by
  exact ⟨by decide, by decide, by decide⟩

/-- C3, amended claim theorem.  For every vehicle `v` and matrix indices
`i, j` (including `i = j`), the unit constraint `w_{i,j,v} = 0` is emitted
exactly when the candidate-matrix entry is `0` or `−1`; arcs whose entry
is a positive distance are not forced to `0`. -/
theorem prune_constraints_spec (mats : List Mat) (n v i j : Nat)
    (hv : v < mats.length) (hi : i < n) (hj : j < n) :
    ((v, i, j) ∈ setFalseTriples mats n ↔
      (mats.getD v (fun _ _ => -1)) i j = 0 ∨ (mats.getD v (fun _ _ => -1)) i j = -1) := by
  simp only [setFalseTriples, List.mem_flatMap, List.mem_range, List.mem_filterMap]
  constructor
  · rintro ⟨v', hv', i', hi', j', hj', hcond⟩
    by_cases h : (mats.getD v' (fun _ _ => -1)) i' j' ≠ 0 ∧ (mats.getD v' (fun _ _ => -1)) i' j' ≠ -1
    · rw [if_pos h] at hcond
      exact absurd hcond (by simp)
    · rw [if_neg h] at hcond
      have heq := Option.some.inj hcond
      simp only [Prod.mk.injEq] at heq
      obtain ⟨rfl, rfl, rfl⟩ := heq
      tauto
  · intro h
    refine ⟨v, hv, i, hi, j, hj, ?_⟩
    rw [if_neg (by tauto)]

/-- C3, witness: the pruning characterization at the zero-distance arc of
`exZero`'s candidate matrix. -/
theorem prune_constraints_spec_witness :
    (0 < 1 ∧ 1 < 3 ∧ 2 < 3) ∧
    ((0, 1, 2) ∈ setFalseTriples [loadMatrix exZero exZeroNbrs [1, 2]] 3 ↔
      (loadMatrix exZero exZeroNbrs [1, 2]) 1 2 = 0 ∨
      (loadMatrix exZero exZeroNbrs [1, 2]) 1 2 = -1) :=
  ⟨by decide, prune_constraints_spec [loadMatrix exZero exZeroNbrs [1, 2]] 3 0 1 2
    (by decide) (by decide) (by decide)⟩

/-! ## Theorems: C2 (Solver.decode collects `w` names, no reconstruction) -/

theorem collectRoutes_filterMap (mi : List (Int × PStr)) (model : List Int) :
    collectRoutes mi model = model.filterMap (wName mi) := by
  have h : ∀ acc, model.foldl
      (fun rts item =>
        match lookupInv mi item with
        | none => rts
        | some var => if strBegins (("w_").data) var then rts ++ [var] else rts) acc
      = acc ++ model.filterMap (wName mi) := by
    induction model with
    | nil => simp
    | cons it rest ih =>
      intro acc
      simp only [List.foldl_cons, List.filterMap_cons]
      cases hl : lookupInv mi it with
      | none => simp [wName, hl, ih]
      | some var =>
        by_cases hw : strBegins (("w_").data) var = true
        · simp [wName, hl, hw, ih]
        · simp [wName, hl, hw, ih]
  simpa [collectRoutes] using h []

theorem decodeLines_ok (lines : List PStr)
    (h1 : ∀ line ∈ lines, ¬ strBegins (("s UNSATISFIABLE").data) line = true)
    (h2 : ∀ line ∈ lines, strBegins (("v").data) line = true → (parseTokens line).isSome) :
    ∀ o0 m0, ∃ opt, decodeLines lines (o0, m0) = .ok (opt, m0 ++ vTokens lines) := by
  induction lines with
  | nil =>
    intro o0 m0
    exact ⟨o0, by simp [decodeLines, vTokens]⟩
  | cons line rest ih =>
    intro o0 m0
    have hs := h1 line (by simp)
    have ih' := ih (fun l hl => h1 l (by simp [hl])) (fun l hl => h2 l (by simp [hl]))
    by_cases hv : strBegins (("v").data) line = true
    · have hp := h2 line (by simp) hv
      cases hpt : parseTokens line with
      | none => rw [hpt] at hp; simp at hp
      | some vs =>
        obtain ⟨opt, hopt⟩ := ih' (if strBegins (("o").data) line then some (line.drop 2) else o0)
          (m0 ++ vs)
        refine ⟨opt, ?_⟩
        have hvt : vTokens (line :: rest) = vs ++ vTokens rest := by
          simp [vTokens, hv, hpt]
        by_cases ho : strBegins (("o").data) line = true
        · simp only [decodeLines, if_neg hs, if_pos ho, if_pos hv, hpt]
          rw [if_pos ho] at hopt
          rw [hopt, hvt, List.append_assoc]
        · simp only [decodeLines, if_neg hs, if_neg ho, if_pos hv, hpt]
          rw [if_neg ho] at hopt
          rw [hopt, hvt, List.append_assoc]
    · have hvt : vTokens (line :: rest) = vTokens rest := by
        simp [vTokens, hv]
      by_cases ho : strBegins (("o").data) line = true
      · obtain ⟨opt, hopt⟩ := ih' (some (line.drop 2)) m0
        refine ⟨opt, ?_⟩
        simp only [decodeLines, if_neg hs, if_pos ho, if_neg hv]
        rw [hopt, hvt]
      · obtain ⟨opt, hopt⟩ := ih' o0 m0
        refine ⟨opt, ?_⟩
        simp only [decodeLines, if_neg hs, if_neg ho, if_neg hv]
        rw [hopt, hvt]

/-- C2, amended claim theorem.  When the output contains no
`s UNSATISFIABLE` line and every `v`-line parses, `decode` returns
normally: it records an optimum text and produces, as "routes", exactly
the list of mapped variable names of the accumulated `v`-line literals
that start with `w_` (in order).  No chain walking over the selected arcs
is performed and no inconsistency (broken chain, duplicated customer,
wrong customer count) is detected or reported. -/
theorem solver_decode_spec (mi : List (Int × PStr)) (lines : List PStr)
    (h1 : ∀ line ∈ lines, ¬ strBegins (("s UNSATISFIABLE").data) line = true)
    (h2 : ∀ line ∈ lines, strBegins (("v").data) line = true → (parseTokens line).isSome) :
    ∃ opt, decode mi lines = .ok (opt, (vTokens lines).filterMap (wName mi)) := by
  obtain ⟨opt, h⟩ := decodeLines_ok lines h1 h2 none []
  refine ⟨opt, ?_⟩
  simp [decode, h, collectRoutes_filterMap]

/-- C2, witness: the decode theorem applied to the concrete output
`exOut`. -/
theorem solver_decode_spec_witness :
    (∀ line ∈ exOut, ¬ strBegins (("s UNSATISFIABLE").data) line = true) ∧
    (∃ opt, decode exMi exOut = .ok (opt, (vTokens exOut).filterMap (wName exMi))) :=
  ⟨by decide, solver_decode_spec exMi exOut (by decide) (by decide)⟩

/-- C2, counterexample.  `exOut` selects a broken chain (arc `0→1` only;
no return arc, customer 2 missing, 1 ≠ n−1 = 2 customers reconstructed),
so the claim requires the operation to fail with `InconsistentSolution`;
instead `decode` returns normally with the selected `w` variable name. -/
theorem solver_decode_counterexample :
    decode exMi exOut = .ok (some (("12").data), [("w_0_1_0").data]) := rfl

/-! ## Theorems: C6 (TwoOpt) -/

theorem mem_pairList (n : Nat) (i j : Nat) :
    (i, j) ∈ pairList n ↔ i < j ∧ j < n := by
  simp only [pairList, pyRange, List.mem_flatMap, List.mem_range, List.mem_map,
    List.mem_range'_1, Prod.mk.injEq]
  constructor
  · rintro ⟨i', hi', j', ⟨h1, h2⟩, rfl, rfl⟩
    omega
  · rintro ⟨h1, h2⟩
    exact ⟨i, by omega, j, by omega, rfl, rfl⟩

theorem reverseSegment_perm (r : List Nat) (i j : Nat) (h : i ≤ j + 1) :
    (reverseSegment r i j).Perm r := by
  have hd : r.drop (j + 1) = (r.drop i).drop (j + 1 - i) := by
    rw [List.drop_drop]
    congr 1
    omega
  conv_rhs => rw [← List.take_append_drop i r]
  unfold reverseSegment
  rw [List.append_assoc]
  refine List.Perm.append_left _ ?_
  conv_rhs => rw [← List.take_append_drop (j + 1 - i) (r.drop i)]
  rw [hd]
  exact List.Perm.append (List.reverse_perm _) (List.Perm.refl _)

theorem twoOptStep_flag (c : CVRPInstance) (r : List Nat) (ps : List (Nat × Nat))
    (acc : List Nat × Bool) (h : acc.2 = true) :
    (ps.foldl (twoOptStep c r) acc).2 = true := by
  induction ps generalizing acc with
  | nil => exact h
  | cons p ps ih =>
    simp only [List.foldl_cons]
    refine ih _ ?_
    simp only [twoOptStep]
    split
    · rfl
    · exact h

theorem twoOptPass_fold_false (c : CVRPInstance) (r : List Nat) (ps : List (Nat × Nat))
    (acc : List Nat × Bool) (hres : (ps.foldl (twoOptStep c r) acc).2 = false) :
    ps.foldl (twoOptStep c r) acc = acc ∧
    ∀ p ∈ ps, ¬ routeCost c (reverseSegment r p.1 p.2) < routeCost c acc.1 := by
  induction ps generalizing acc with
  | nil => exact ⟨rfl, by simp⟩
  | cons p ps ih =>
    simp only [List.foldl_cons] at hres ⊢
    by_cases hc : routeCost c (reverseSegment r p.1 p.2) < routeCost c acc.1
    · exfalso
      have : (twoOptStep c r acc p).2 = true := by
        simp only [twoOptStep]
        rw [if_pos hc]
      rw [twoOptStep_flag c r ps _ this] at hres
      exact Bool.true_eq_false.mp hres
    · have hstep : twoOptStep c r acc p = acc := by
        simp only [twoOptStep]
        rw [if_neg hc]
      rw [hstep] at hres ⊢
      obtain ⟨h1, h2⟩ := ih acc hres
      refine ⟨h1, ?_⟩
      intro q hq
      rcases List.mem_cons.mp hq with hq | hq
      · subst hq; exact hc
      · exact h2 q hq

theorem twoOptPass_fold_inv (c : CVRPInstance) (r : List Nat) (ps : List (Nat × Nat))
    (hps : ∀ p ∈ ps, p.1 < p.2) (acc : List Nat × Bool)
    (hperm : acc.1.Perm r) (hle : routeCost c acc.1 ≤ routeCost c r)
    (himp : acc.2 = true → routeCost c acc.1 < routeCost c r) :
    (ps.foldl (twoOptStep c r) acc).1.Perm r ∧
    routeCost c (ps.foldl (twoOptStep c r) acc).1 ≤ routeCost c r ∧
    ((ps.foldl (twoOptStep c r) acc).2 = true →
      routeCost c (ps.foldl (twoOptStep c r) acc).1 < routeCost c r) := by
  induction ps generalizing acc with
  | nil => exact ⟨hperm, hle, himp⟩
  | cons p ps ih =>
    simp only [List.foldl_cons]
    by_cases hc : routeCost c (reverseSegment r p.1 p.2) < routeCost c acc.1
    · have hstep : twoOptStep c r acc p = (reverseSegment r p.1 p.2, true) := by
        simp only [twoOptStep]
        rw [if_pos hc]
      rw [hstep]
      have hp := hps p (by simp)
      refine ih (fun q hq => hps q (by simp [hq])) _ ?_ ?_ ?_
      · exact reverseSegment_perm r p.1 p.2 (by omega)
      · exact le_of_lt (lt_of_lt_of_le hc hle)
      · intro _
        exact lt_of_lt_of_le hc hle
    · have hstep : twoOptStep c r acc p = acc := by
        simp only [twoOptStep]
        rw [if_neg hc]
      rw [hstep]
      exact ih (fun q hq => hps q (by simp [hq])) _ hperm hle himp

theorem twoOptPass_spec (c : CVRPInstance) (r : List Nat) :
    (twoOptPass c r).1.Perm r ∧
    routeCost c (twoOptPass c r).1 ≤ routeCost c r ∧
    ((twoOptPass c r).2 = true → routeCost c (twoOptPass c r).1 < routeCost c r) ∧
    ((twoOptPass c r).2 = false →
      (twoOptPass c r).1 = r ∧
      ∀ p ∈ pairList r.length, ¬ routeCost c (reverseSegment r p.1 p.2) < routeCost c r) := by
  have hps : ∀ p ∈ pairList r.length, p.1 < p.2 := by
    intro ⟨i, j⟩ hp
    exact ((mem_pairList r.length i j).mp hp).1
  obtain ⟨h1, h2, h3⟩ := twoOptPass_fold_inv c r (pairList r.length) hps (r, false)
    (List.Perm.refl r) (le_refl _) (by simp)
  refine ⟨h1, h2, h3, ?_⟩
  intro hfalse
  obtain ⟨heq, hall⟩ := twoOptPass_fold_false c r (pairList r.length) (r, false) hfalse
  exact ⟨by rw [twoOptPass, heq], hall⟩

theorem twoOptLoop_perm_cost (c : CVRPInstance) :
    ∀ fuel r, (twoOptLoop c fuel r).Perm r ∧
      routeCost c (twoOptLoop c fuel r) ≤ routeCost c r := by
  intro fuel
  induction fuel with
  | zero => intro r; exact ⟨List.Perm.refl r, le_refl _⟩
  | succ fuel ih =>
    intro r
    obtain ⟨hperm, hle, himp, _⟩ := twoOptPass_spec c r
    by_cases hfl : (twoOptPass c r).2 = true
    · have hunf : twoOptLoop c (fuel + 1) r = twoOptLoop c fuel (twoOptPass c r).1 := by
        simp only [twoOptLoop]
        rw [if_pos hfl]
      rw [hunf]
      obtain ⟨ihp, ihc⟩ := ih (twoOptPass c r).1
      exact ⟨ihp.trans hperm, le_trans ihc hle⟩
    · have hunf : twoOptLoop c (fuel + 1) r = r := by
        simp only [twoOptLoop]
        rw [if_neg hfl]
      rw [hunf]
      exact ⟨List.Perm.refl r, le_refl _⟩

theorem twoOptLoop_localopt (c : CVRPInstance) :
    ∀ fuel r, routeCost c r < fuel →
      ∀ p ∈ pairList (twoOptLoop c fuel r).length,
        ¬ routeCost c (reverseSegment (twoOptLoop c fuel r) p.1 p.2) <
          routeCost c (twoOptLoop c fuel r) := by
  intro fuel
  induction fuel with
  | zero => intro r hr; omega
  | succ fuel ih =>
    intro r hr
    obtain ⟨hperm, hle, himp, hfix⟩ := twoOptPass_spec c r
    by_cases hfl : (twoOptPass c r).2 = true
    · have hunf : twoOptLoop c (fuel + 1) r = twoOptLoop c fuel (twoOptPass c r).1 := by
        simp only [twoOptLoop]
        rw [if_pos hfl]
      rw [hunf]
      have hb : routeCost c (twoOptPass c r).1 < fuel := by
        have := himp hfl
        omega
      exact ih (twoOptPass c r).1 hb
    · have hunf : twoOptLoop c (fuel + 1) r = r := by
        simp only [twoOptLoop]
        rw [if_neg hfl]
      rw [hunf]
      obtain ⟨heq, hall⟩ := hfix (Bool.not_eq_true _ ▸ hfl)
      exact hall

theorem forall₂_map_self (R : α → β → Prop) (f : α → β) (l : List α)
    (h : ∀ a ∈ l, R a (f a)) : List.Forall₂ R l (l.map f) := by
  induction l with
  | nil => exact List.Forall₂.nil
  | cons x xs ih =>
    exact List.Forall₂.cons (h x (by simp)) (ih (fun a ha => h a (by simp [ha])))

theorem sum_le_of_forall₂ (f : α → Nat) (g : β → Nat) (l : List α) (l' : List β)
    (h : List.Forall₂ (fun a b => g b ≤ f a) l l') :
    (l'.map g).sum ≤ (l.map f).sum := by
  induction h with
  | nil => exact le_refl _
  | cons hab _ ih =>
    simp only [List.map_cons, List.sum_cons]
    omega

/-- C6, claim theorem.  `TwoOpt.improve_routes` rewrites every route of
the collection (same key, in place): the new route is a permutation of
the old one (same customer multiset), its cost never increases (hence the
total cost never increases), and at termination every route is 2-opt
locally optimal — no reversal of a closed segment `[i..j]`, `i < j`, is
strictly cheaper.  Termination itself is witnessed by the function being
total: `routeCost r + 1` passes always reach the fixpoint, as the
`twoOptLoop_localopt` bound used here shows. -/
theorem two_opt_spec (c : CVRPInstance) (rs : Routes) :
    List.Forall₂ (fun e e' : Nat × List Nat =>
        e'.1 = e.1 ∧ e'.2.Perm e.2 ∧ routeCost c e'.2 ≤ routeCost c e.2 ∧
        ∀ i j, i < j → j < e'.2.length →
          ¬ routeCost c (reverseSegment e'.2 i j) < routeCost c e'.2)
      rs (improveRoutes c rs) ∧
    ((improveRoutes c rs).map (fun e => routeCost c e.2)).sum ≤
      (rs.map (fun e => routeCost c e.2)).sum := by
  have hall : ∀ e : Nat × List Nat, e ∈ rs →
      (fun e e' : Nat × List Nat =>
        e'.1 = e.1 ∧ e'.2.Perm e.2 ∧ routeCost c e'.2 ≤ routeCost c e.2 ∧
        ∀ i j, i < j → j < e'.2.length →
          ¬ routeCost c (reverseSegment e'.2 i j) < routeCost c e'.2)
        e (e.1, twoOptLoop c (routeCost c e.2 + 1) e.2) := by
    intro e _
    obtain ⟨hperm, hle⟩ := twoOptLoop_perm_cost c (routeCost c e.2 + 1) e.2
    refine ⟨rfl, hperm, hle, ?_⟩
    intro i j hij hj
    have := twoOptLoop_localopt c (routeCost c e.2 + 1) e.2 (by omega) (i, j)
      ((mem_pairList _ i j).mpr ⟨hij, hj⟩)
    exact this
  have hf := forall₂_map_self
    (fun e e' : Nat × List Nat =>
      e'.1 = e.1 ∧ e'.2.Perm e.2 ∧ routeCost c e'.2 ≤ routeCost c e.2 ∧
      ∀ i j, i < j → j < e'.2.length →
        ¬ routeCost c (reverseSegment e'.2 i j) < routeCost c e'.2)
    (fun e : Nat × List Nat => (e.1, twoOptLoop c (routeCost c e.2 + 1) e.2)) rs hall
  refine ⟨hf, ?_⟩
  refine sum_le_of_forall₂ (fun e : Nat × List Nat => routeCost c e.2)
    (fun e : Nat × List Nat => routeCost c e.2) rs _ ?_
  exact hf.imp (fun a b h => h.2.2.1)

/-- C6, witness: on `exA`'s merged route `[1, 2]` the improved route is
`[1, 2]` itself and reversing the whole segment is not cheaper. -/
theorem two_opt_spec_witness :
    ¬ routeCost exA (reverseSegment [1, 2] 0 1) < routeCost exA [1, 2] := by
  have h := (two_opt_spec exA [(1, [1, 2])]).1
  have hcomp : improveRoutes exA [(1, [1, 2])] = [(1, [1, 2])] := by decide
  rw [hcomp] at h
  rcases h with _ | ⟨⟨-, -, -, hopt⟩, -⟩
  exact hopt 0 1 (by decide) (by decide)

/-! ## Theorems: C7 (KNeighbors candidate matrices) -/

theorem symSet_fst (m : Mat) (i j : Nat) (v : Int) : symSet m i j v i j = v := by
  unfold symSet matSet
  by_cases h : i = j ∧ j = i
  · rw [if_pos h]
  · rw [if_neg h, if_pos ⟨rfl, rfl⟩]

theorem symSet_snd (m : Mat) (i j : Nat) (v : Int) : symSet m i j v j i = v := by
  unfold symSet matSet
  rw [if_pos ⟨rfl, rfl⟩]

theorem symSet_other (m : Mat) (i j a b : Nat) (v : Int)
    (h1 : ¬(a = i ∧ b = j)) (h2 : ¬(a = j ∧ b = i)) :
    symSet m i j v a b = m a b := by
  unfold symSet matSet
  rw [if_neg h2, if_neg h1]

/-- Every write of `load_matrices` stores a true distance symmetrically,
so a cell already holding its true distance keeps it. -/
theorem symSet_presD (c : CVRPInstance) (hsym : ∀ a b, c.distances a b = c.distances b a)
    (m : Mat) (x y a b : Nat) (h : m a b = (c.distances a b : Int)) :
    symSet m x y ((c.distances x y : Nat) : Int) a b = (c.distances a b : Int) := by
  by_cases h1 : a = x ∧ b = y
  · obtain ⟨rfl, rfl⟩ := h1
    rw [symSet_fst]
  · by_cases h2 : a = y ∧ b = x
    · obtain ⟨rfl, rfl⟩ := h2
      rw [symSet_snd]
      exact_mod_cast hsym _ _
    · rw [symSet_other m x y a b _ h1 h2]
      exact h

theorem symSet_presDiag (c : CVRPInstance) (hdiag : ∀ a, c.distances a a = 0)
    (m : Mat) (x y i : Nat) (h : m i i = 0) :
    symSet m x y ((c.distances x y : Nat) : Int) i i = 0 := by
  by_cases h1 : i = x ∧ i = y
  · obtain ⟨hx, hy⟩ := h1
    subst hx
    subst hy
    rw [symSet_fst]
    exact_mod_cast hdiag i
  · rw [symSet_other m x y i i _ (fun hc => h1 ⟨hc.1, hc.2⟩) (fun hc => h1 ⟨hc.2, hc.1⟩)]
    exact h

theorem symSet_presSym (m : Mat) (x y : Nat) (v : Int)
    (h : ∀ a b, m a b = m b a) (a b : Nat) :
    symSet m x y v a b = symSet m x y v b a := by
  unfold symSet matSet
  by_cases c1 : a = y ∧ b = x
  · rw [if_pos c1]
    by_cases c3 : b = y ∧ a = x
    · rw [if_pos c3]
    · rw [if_neg c3, if_pos ⟨c1.2, c1.1⟩]
  · rw [if_neg c1]
    by_cases c2 : a = x ∧ b = y
    · rw [if_pos c2, if_pos ⟨c2.2, c2.1⟩]
    · rw [if_neg c2, if_neg (fun hc => c2 ⟨hc.2, hc.1⟩), if_neg (fun hc => c1 ⟨hc.2, hc.1⟩)]
      exact h a b

theorem consecWrites_presD (c : CVRPInstance)
    (hsym : ∀ a b, c.distances a b = c.distances b a)
    (l : List Nat) (a b : Nat) :
    ∀ m : Mat, m a b = (c.distances a b : Int) →
      consecWrites c m l a b = (c.distances a b : Int) := by
  induction l with
  | nil => intro m h; exact h
  | cons x xs ih =>
    intro m h
    cases xs with
    | nil => exact h
    | cons y ys =>
      show consecWrites c (symSet m x y _) (y :: ys) a b = _
      exact ih _ (symSet_presD c hsym m x y a b h)

theorem consecWrites_presDiag (c : CVRPInstance)
    (hdiag : ∀ a, c.distances a a = 0) (l : List Nat) (i : Nat) :
    ∀ m : Mat, m i i = 0 → consecWrites c m l i i = 0 := by
  induction l with
  | nil => intro m h; exact h
  | cons x xs ih =>
    intro m h
    cases xs with
    | nil => exact h
    | cons y ys =>
      show consecWrites c (symSet m x y _) (y :: ys) i i = 0
      exact ih _ (symSet_presDiag c hdiag m x y i h)

theorem consecWrites_presSym (c : CVRPInstance) (l : List Nat) :
    ∀ m : Mat, (∀ a b, m a b = m b a) →
      ∀ a b, consecWrites c m l a b = consecWrites c m l b a := by
  induction l with
  | nil => intro m h; exact h
  | cons x xs ih =>
    intro m h
    cases xs with
    | nil => exact h
    | cons y ys =>
      show ∀ a b, consecWrites c (symSet m x y _) (y :: ys) a b = _
      exact ih _ (symSet_presSym m x y _ h)

theorem consecWrites_mem (c : CVRPInstance)
    (hsym : ∀ a b, c.distances a b = c.distances b a)
    (l : List Nat) (a b : Nat) (hab : (a, b) ∈ consecPairs l) :
    ∀ m : Mat, consecWrites c m l a b = (c.distances a b : Int) := by
  induction l with
  | nil => cases hab
  | cons x xs ih =>
    intro m
    cases xs with
    | nil => cases hab
    | cons y ys =>
      show consecWrites c (symSet m x y _) (y :: ys) a b = _
      rcases List.mem_cons.mp hab with h | h
      · obtain ⟨rfl, rfl⟩ := Prod.mk.injEq .. ▸ h
        refine consecWrites_presD c hsym _ a b _ ?_
        rw [symSet_fst]
      · exact ih h _

theorem consecWrites_untouched (c : CVRPInstance) (l : List Nat) (a b : Nat)
    (hab : ∀ p ∈ consecPairs l, ¬(a = p.1 ∧ b = p.2) ∧ ¬(a = p.2 ∧ b = p.1)) :
    ∀ m : Mat, consecWrites c m l a b = m a b := by
  induction l with
  | nil => intro m; rfl
  | cons x xs ih =>
    intro m
    cases xs with
    | nil => rfl
    | cons y ys =>
      show consecWrites c (symSet m x y _) (y :: ys) a b = _
      have hp := hab (x, y) (by simp [consecPairs])
      rw [ih (fun p hp' => hab p (by simp [consecPairs, hp'])) _]
      exact symSet_other m x y a b _ hp.1 hp.2

theorem nbrFold_presD (c : CVRPInstance)
    (hsym : ∀ a b, c.distances a b = c.distances b a)
    (cust : Nat) (vs : List Nat) (a b : Nat) :
    ∀ m : Mat, m a b = (c.distances a b : Int) →
      (vs.foldl (fun m v => symSet m cust v (c.distances cust v)) m) a b
        = (c.distances a b : Int) := by
  induction vs with
  | nil => intro m h; exact h
  | cons v vs ih =>
    intro m h
    exact ih _ (symSet_presD c hsym m cust v a b h)

theorem nbrFold_presDiag (c : CVRPInstance)
    (hdiag : ∀ a, c.distances a a = 0) (cust : Nat) (vs : List Nat) (i : Nat) :
    ∀ m : Mat, m i i = 0 →
      (vs.foldl (fun m v => symSet m cust v (c.distances cust v)) m) i i = 0 := by
  induction vs with
  | nil => intro m h; exact h
  | cons v vs ih =>
    intro m h
    exact ih _ (symSet_presDiag c hdiag m cust v i h)

theorem nbrFold_presSym (c : CVRPInstance) (cust : Nat) (vs : List Nat) :
    ∀ m : Mat, (∀ a b, m a b = m b a) →
      ∀ a b, (vs.foldl (fun m v => symSet m cust v (c.distances cust v)) m) a b
        = (vs.foldl (fun m v => symSet m cust v (c.distances cust v)) m) b a := by
  induction vs with
  | nil => intro m h; exact h
  | cons v vs ih =>
    intro m h
    exact ih _ (symSet_presSym m cust v _ h)

theorem nbrFold_mem (c : CVRPInstance)
    (hsym : ∀ a b, c.distances a b = c.distances b a)
    (cust : Nat) (vs : List Nat) (v : Nat) (hv : v ∈ vs) :
    ∀ m : Mat, (vs.foldl (fun m v => symSet m cust v (c.distances cust v)) m) cust v
      = (c.distances cust v : Int) := by
  induction vs with
  | nil => cases hv
  | cons w ws ih =>
    intro m
    rcases List.mem_cons.mp hv with h | h
    · subst h
      refine nbrFold_presD c hsym cust ws cust v _ ?_
      exact symSet_fst m cust v _
    · exact ih h _

theorem nbrFold_untouched (c : CVRPInstance) (cust : Nat) (vs : List Nat) (a b : Nat)
    (hab : ∀ v ∈ vs, ¬(a = cust ∧ b = v) ∧ ¬(a = v ∧ b = cust)) :
    ∀ m : Mat, (vs.foldl (fun m v => symSet m cust v (c.distances cust v)) m) a b = m a b := by
  induction vs with
  | nil => intro m; rfl
  | cons v vs ih =>
    intro m
    have hp := hab v (by simp)
    rw [List.foldl_cons, ih (fun w hw => hab w (by simp [hw])) _]
    exact symSet_other m cust v a b _ hp.1 hp.2

theorem neighborWrites_presD (c : CVRPInstance)
    (hsym : ∀ a b, c.distances a b = c.distances b a)
    (nbrs : Nat → List Nat) (l : List Nat) (a b : Nat) :
    ∀ m : Mat, m a b = (c.distances a b : Int) →
      neighborWrites c nbrs m l a b = (c.distances a b : Int) := by
  induction l with
  | nil => intro m h; exact h
  | cons x xs ih =>
    intro m h
    exact ih _ (nbrFold_presD c hsym x (nbrs x) a b m h)

theorem neighborWrites_presDiag (c : CVRPInstance)
    (hdiag : ∀ a, c.distances a a = 0)
    (nbrs : Nat → List Nat) (l : List Nat) (i : Nat) :
    ∀ m : Mat, m i i = 0 → neighborWrites c nbrs m l i i = 0 := by
  induction l with
  | nil => intro m h; exact h
  | cons x xs ih =>
    intro m h
    exact ih _ (nbrFold_presDiag c hdiag x (nbrs x) i m h)

theorem neighborWrites_presSym (c : CVRPInstance)
    (nbrs : Nat → List Nat) (l : List Nat) :
    ∀ m : Mat, (∀ a b, m a b = m b a) →
      ∀ a b, neighborWrites c nbrs m l a b = neighborWrites c nbrs m l b a := by
  induction l with
  | nil => intro m h; exact h
  | cons x xs ih =>
    intro m h
    exact ih _ (nbrFold_presSym c x (nbrs x) m h)

theorem neighborWrites_mem (c : CVRPInstance)
    (hsym : ∀ a b, c.distances a b = c.distances b a)
    (nbrs : Nat → List Nat) (l : List Nat) (cust v : Nat)
    (hc : cust ∈ l) (hv : v ∈ nbrs cust) :
    ∀ m : Mat, neighborWrites c nbrs m l cust v = (c.distances cust v : Int) := by
  induction l with
  | nil => cases hc
  | cons x xs ih =>
    intro m
    rcases List.mem_cons.mp hc with h | h
    · subst h
      refine neighborWrites_presD c hsym nbrs xs cust v _ ?_
      exact nbrFold_mem c hsym cust (nbrs cust) v hv m
    · exact ih h _

theorem neighborWrites_untouched (c : CVRPInstance)
    (nbrs : Nat → List Nat) (l : List Nat) (a b : Nat)
    (hab : ∀ cust ∈ l, ∀ v ∈ nbrs cust, ¬(a = cust ∧ b = v) ∧ ¬(a = v ∧ b = cust)) :
    ∀ m : Mat, neighborWrites c nbrs m l a b = m a b := by
  induction l with
  | nil => intro m; rfl
  | cons x xs ih =>
    intro m
    rw [show neighborWrites c nbrs m (x :: xs) = neighborWrites c nbrs
      ((nbrs x).foldl (fun m v => symSet m x v (c.distances x v)) m) xs from rfl]
    rw [ih (fun cust hc => hab cust (by simp [hc])) _]
    exact nbrFold_untouched c x (nbrs x) a b (hab x (by simp)) m

theorem loadMatrixBase_eq (n a b : Nat) :
    loadMatrixBase n a b = if a = b ∧ a < n then 0 else -1 := by
  have key : ∀ (l : List Nat) (m : Mat),
      (l.foldl (fun m i => matSet m i i 0) m) a b =
        if a = b ∧ a ∈ l then 0 else m a b := by
    intro l
    induction l with
    | nil => intro m; simp
    | cons i l ih =>
      intro m
      simp only [List.foldl_cons, ih, matSet, List.mem_cons]
      by_cases hb : a = b
      · subst hb
        by_cases hl : a ∈ l
        · rw [if_pos ⟨rfl, hl⟩, if_pos ⟨rfl, Or.inr hl⟩]
        · rw [if_neg (fun hc => hl hc.2)]
          by_cases hi : a = i
          · rw [if_pos ⟨hi, hi⟩, if_pos ⟨rfl, Or.inl hi⟩]
          · have hcond : ¬(a = a ∧ (a = i ∨ a ∈ l)) := fun hc => hc.2.elim hi hl
            rw [if_neg (fun hc : a = i ∧ a = i => hi hc.1), if_neg hcond]
      · rw [if_neg (fun hc : a = b ∧ a ∈ l => hb hc.1),
          if_neg (fun hc : a = i ∧ b = i => hb (hc.1.trans hc.2.symm)),
          if_neg (fun hc : a = b ∧ (a = i ∨ a ∈ l) => hb hc.1)]
  rw [loadMatrixBase, key]
  simp [List.mem_range]

theorem loadMatrixBase_symm (n a b : Nat) :
    loadMatrixBase n a b = loadMatrixBase n b a := by
  rw [loadMatrixBase_eq, loadMatrixBase_eq]
  by_cases hab : a = b
  · subst hab; rfl
  · rw [if_neg (fun hc => hab hc.1), if_neg (fun hc => hab hc.1.symm)]

theorem populatedPairs_consec (r : List Nat) (nbrs : Nat → List Nat) (x : Nat) (xs : List Nat)
    (hr : r = x :: xs) (p : Nat × Nat) (hp : p ∈ consecPairs r) :
    (p.1, p.2) ∈ populatedPairs r nbrs ∧ (p.2, p.1) ∈ populatedPairs r nbrs := by
  subst hr
  constructor <;>
    · simp only [populatedPairs, List.mem_append, List.mem_flatMap]
      exact Or.inl (Or.inl (Or.inr ⟨p, hp, by simp⟩))

theorem populatedPairs_nbr (r : List Nat) (nbrs : Nat → List Nat) (x : Nat) (xs : List Nat)
    (hr : r = x :: xs) (cust v : Nat) (hc : cust ∈ r) (hv : v ∈ nbrs cust) :
    (cust, v) ∈ populatedPairs r nbrs ∧ (v, cust) ∈ populatedPairs r nbrs := by
  subst hr
  constructor <;>
    · simp only [populatedPairs, List.mem_append, List.mem_flatMap]
      exact Or.inr ⟨cust, hc, v, hv, by simp⟩

/-- C7, claim theorem.  For every non-empty route `r` and neighbor lists
`nbrs` (the `nearest_neighbors` results), the candidate matrix satisfies:
zero diagonal; symmetry; the true distance on every consecutive route
edge, on the two depot-boundary edges `(0, r[0])` and `(r[-1], 0)`, and on
every `(customer, neighbor)` edge; and `-1` on every other off-diagonal
entry.  Only the instance invariants (symmetric distances, zero diagonal)
are assumed. -/
theorem load_matrix_spec (c : CVRPInstance) (nbrs : Nat → List Nat) (r : List Nat)
    (hsym : ∀ a b, c.distances a b = c.distances b a)
    (hdiag : ∀ a, c.distances a a = 0)
    (hr : r ≠ []) :
    (∀ i, i < c.dimension → loadMatrix c nbrs r i i = 0) ∧
    (∀ i j, loadMatrix c nbrs r i j = loadMatrix c nbrs r j i) ∧
    (∀ p ∈ consecPairs r, loadMatrix c nbrs r p.1 p.2 = (c.distances p.1 p.2 : Int)) ∧
    loadMatrix c nbrs r 0 (r.headD 0) = (c.distances 0 (r.headD 0) : Int) ∧
    loadMatrix c nbrs r (r.getLastD 0) 0 = (c.distances (r.getLastD 0) 0 : Int) ∧
    (∀ cust ∈ r, ∀ v ∈ nbrs cust, loadMatrix c nbrs r cust v = (c.distances cust v : Int)) ∧
    (∀ i j, i ≠ j → (i, j) ∉ populatedPairs r nbrs → loadMatrix c nbrs r i j = -1) := by
  obtain ⟨x, xs, rfl⟩ := List.exists_cons_of_ne_nil hr
  have hM : loadMatrix c nbrs (x :: xs) =
      neighborWrites c nbrs
        (symSet
          (consecWrites c (symSet (loadMatrixBase c.dimension) 0 x (c.distances 0 x)) (x :: xs))
          0 ((x :: xs).getLastD 0) (c.distances 0 ((x :: xs).getLastD 0)))
        (x :: xs) := rfl
  refine ⟨?_, ?_, ?_, ?_, ?_, ?_, ?_⟩
  · -- diagonal
    intro i hi
    rw [hM]
    refine neighborWrites_presDiag c hdiag nbrs _ i _ ?_
    refine symSet_presDiag c hdiag _ _ _ i ?_
    refine consecWrites_presDiag c hdiag _ i _ ?_
    refine symSet_presDiag c hdiag _ _ _ i ?_
    rw [loadMatrixBase_eq, if_pos ⟨rfl, hi⟩]
  · -- symmetry
    intro i j
    rw [hM]
    refine neighborWrites_presSym c nbrs _ _ ?_ i j
    refine symSet_presSym _ _ _ _ ?_
    refine consecWrites_presSym c _ _ ?_
    refine symSet_presSym _ _ _ _ ?_
    exact fun a b => loadMatrixBase_symm c.dimension a b
  · -- consecutive edges
    intro p hp
    rw [hM]
    refine neighborWrites_presD c hsym nbrs _ p.1 p.2 _ ?_
    refine symSet_presD c hsym _ _ _ p.1 p.2 ?_
    exact consecWrites_mem c hsym _ p.1 p.2 hp _
  · -- first depot edge
    rw [hM]
    refine neighborWrites_presD c hsym nbrs _ 0 _ _ ?_
    refine symSet_presD c hsym _ _ _ 0 _ ?_
    refine consecWrites_presD c hsym _ 0 _ _ ?_
    exact symSet_fst _ 0 x _
  · -- last depot edge
    rw [hM]
    refine neighborWrites_presD c hsym nbrs _ _ 0 _ ?_
    have h := symSet_snd
      (consecWrites c (symSet (loadMatrixBase c.dimension) 0 x (c.distances 0 x)) (x :: xs))
      0 ((x :: xs).getLastD 0) ((c.distances 0 ((x :: xs).getLastD 0) : Nat) : Int)
    rw [h]
    exact_mod_cast hsym 0 ((x :: xs).getLastD 0)
  · -- neighbor edges
    intro cust hc v hv
    rw [hM]
    exact neighborWrites_mem c hsym nbrs _ cust v hc hv _
  · -- unpopulated entries stay -1
    intro i j hne hnp
    rw [hM]
    have hmem0x : ((0 : Nat), x) ∈ populatedPairs (x :: xs) nbrs := by
      simp [populatedPairs]
    have hmemx0 : (x, (0 : Nat)) ∈ populatedPairs (x :: xs) nbrs := by
      simp [populatedPairs]
    have hmem0L : ((0 : Nat), (x :: xs).getLastD 0) ∈ populatedPairs (x :: xs) nbrs := by
      simp only [populatedPairs, List.mem_append]
      exact Or.inl (Or.inr (by simp))
    have hmemL0 : ((x :: xs).getLastD 0, (0 : Nat)) ∈ populatedPairs (x :: xs) nbrs := by
      simp only [populatedPairs, List.mem_append]
      exact Or.inl (Or.inr (by simp))
    rw [neighborWrites_untouched c nbrs _ i j ?hnbr _]
    case hnbr =>
      intro cust hc v hv
      have hpp := populatedPairs_nbr (x :: xs) nbrs x xs rfl cust v hc hv
      constructor
      · intro hc2
        exact hnp (by rw [hc2.1, hc2.2]; exact hpp.1)
      · intro hc2
        exact hnp (by rw [hc2.1, hc2.2]; exact hpp.2)
    rw [symSet_other _ _ _ i j _
      (fun hc2 => hnp (by rw [hc2.1, hc2.2]; exact hmem0L))
      (fun hc2 => hnp (by rw [hc2.1, hc2.2]; exact hmemL0))]
    rw [consecWrites_untouched c (x :: xs) i j ?hcc _]
    case hcc =>
      intro p hp
      have hpp := populatedPairs_consec (x :: xs) nbrs x xs rfl p hp
      constructor
      · intro hc2
        exact hnp (by rw [hc2.1, hc2.2]; exact hpp.1)
      · intro hc2
        exact hnp (by rw [hc2.1, hc2.2]; exact hpp.2)
    rw [symSet_other _ _ _ i j _
      (fun hc2 => hnp (by rw [hc2.1, hc2.2]; exact hmem0x))
      (fun hc2 => hnp (by rw [hc2.1, hc2.2]; exact hmemx0))]
    rw [loadMatrixBase_eq, if_neg (fun hc2 => hne hc2.1)]

/-- C7, witness: the candidate-matrix theorem applied to `exZero`'s route
`[1, 2]`: zero diagonal at `1` and the true (zero) distance on the
consecutive edge `(1, 2)`. -/
theorem load_matrix_spec_witness :
    loadMatrix exZero exZeroNbrs [1, 2] 1 1 = 0 ∧
    loadMatrix exZero exZeroNbrs [1, 2] 1 2 = (exZero.distances 1 2 : Int) := by
  have hsym : ∀ a b, exZero.distances a b = exZero.distances b a := by
    intro a b
    by_cases hab : a = b
    · subst hab; rfl
    · show (if a = b then (0 : Nat) else if (a = 1 ∧ b = 2) ∨ (a = 2 ∧ b = 1) then 0 else 7)
        = (if b = a then 0 else if (b = 1 ∧ a = 2) ∨ (b = 2 ∧ a = 1) then 0 else 7)
      rw [if_neg hab, if_neg (fun h : b = a => hab h.symm)]
      by_cases hc : (a = 1 ∧ b = 2) ∨ (a = 2 ∧ b = 1)
      · rw [if_pos hc, if_pos (by tauto)]
      · rw [if_neg hc, if_neg (by tauto)]
  have hdiag : ∀ a, exZero.distances a a = 0 := fun a => if_pos rfl
  have h := load_matrix_spec exZero exZeroNbrs [1, 2] hsym hdiag (by decide)
  exact ⟨h.1 1 (by decide), h.2.2.1 (1, 2) (by decide)⟩

/-! ## Theorems: C10 (nearest_neighbors) -/

theorem nearestNeighborsMst_pre (k : Nat) (adj : List (Nat × Nat))
    (hadj : (adj.map (·.2)).Nodup) :
    (nearestNeighborsMst k adj).Nodup ∧
    (nearestNeighborsMst k adj).length = min k adj.length ∧
    ∀ x ∈ nearestNeighborsMst k adj, x ∈ adj.map (·.2) := by
  have hperm : ((sortS pairLeB adj).map (·.2)).Perm (adj.map (·.2)) :=
    (sortS_perm pairLeB adj).map _
  have hnd : ((sortS pairLeB adj).map (·.2)).Nodup := hperm.nodup_iff.mpr hadj
  refine ⟨?_, ?_, ?_⟩
  · exact hnd.sublist (List.take_sublist k _)
  · rw [nearestNeighborsMst, List.length_take, List.length_map,
      (sortS_perm pairLeB adj).length_eq]
  · intro x hx
    exact hperm.mem_iff.mp (List.take_subset k _ hx)

theorem extendLoop_subset_self (k : Nat) :
    ∀ (cands nbs : List Nat), ∃ extra, extendLoop k nbs cands = nbs ++ extra := by
  intro cands
  induction cands with
  | nil => intro nbs; exact ⟨[], by simp [extendLoop]⟩
  | cons x xs ih =>
    intro nbs
    show (∃ extra, (let nbs' := if x ∈ nbs then nbs else nbs ++ [x];
      if nbs'.length = k then nbs' else extendLoop k nbs' xs) = nbs ++ extra)
    by_cases hx : x ∈ nbs
    · simp only [if_pos hx]
      by_cases hk : nbs.length = k
      · exact ⟨[], by rw [if_pos hk]; simp⟩
      · obtain ⟨extra, hex⟩ := ih nbs
        exact ⟨extra, by rw [if_neg hk]; exact hex⟩
    · simp only [if_neg hx]
      by_cases hk : (nbs ++ [x]).length = k
      · exact ⟨[x], by rw [if_pos hk]⟩
      · obtain ⟨extra, hex⟩ := ih (nbs ++ [x])
        exact ⟨[x] ++ extra, by rw [if_neg hk, hex, List.append_assoc]⟩

theorem extendLoop_mem (k : Nat) :
    ∀ (cands nbs : List Nat) (x : Nat), x ∈ extendLoop k nbs cands →
      x ∈ nbs ∨ x ∈ cands := by
  intro cands
  induction cands with
  | nil => intro nbs x hx; exact Or.inl hx
  | cons y ys ih =>
    intro nbs x hx
    show x ∈ nbs ∨ x ∈ y :: ys
    rw [show extendLoop k nbs (y :: ys) =
      (let nbs' := if y ∈ nbs then nbs else nbs ++ [y];
        if nbs'.length = k then nbs' else extendLoop k nbs' ys) from rfl] at hx
    by_cases hy : y ∈ nbs
    · rw [if_pos hy] at hx
      by_cases hk : nbs.length = k
      · rw [if_pos hk] at hx
        exact Or.inl hx
      · rw [if_neg hk] at hx
        rcases ih nbs x hx with h | h
        · exact Or.inl h
        · exact Or.inr (by simp [h])
    · rw [if_neg hy] at hx
      by_cases hk : (nbs ++ [y]).length = k
      · rw [if_pos hk] at hx
        rcases List.mem_append.mp hx with h | h
        · exact Or.inl h
        · exact Or.inr (by simp_all)
      · rw [if_neg hk] at hx
        rcases ih (nbs ++ [y]) x hx with h | h
        · rcases List.mem_append.mp h with h | h
          · exact Or.inl h
          · exact Or.inr (by simp_all)
        · exact Or.inr (by simp [h])

theorem extendLoop_nodup (k : Nat) :
    ∀ (cands nbs : List Nat), nbs.Nodup → (extendLoop k nbs cands).Nodup := by
  intro cands
  induction cands with
  | nil => intro nbs h; exact h
  | cons y ys ih =>
    intro nbs h
    show ((let nbs' := if y ∈ nbs then nbs else nbs ++ [y];
      if nbs'.length = k then nbs' else extendLoop k nbs' ys)).Nodup
    by_cases hy : y ∈ nbs
    · rw [if_pos hy]
      by_cases hk : nbs.length = k
      · rw [if_pos hk]; exact h
      · rw [if_neg hk]; exact ih nbs h
    · rw [if_neg hy]
      have h2 : (nbs ++ [y]).Nodup := by
        simp [List.nodup_append, h, hy]
      by_cases hk : (nbs ++ [y]).length = k
      · rw [if_pos hk]; exact h2
      · rw [if_neg hk]; exact ih (nbs ++ [y]) h2

theorem extendLoop_cons_mem (k y : Nat) (ys nbs : List Nat) (hy : y ∈ nbs) :
    extendLoop k nbs (y :: ys) = if nbs.length = k then nbs else extendLoop k nbs ys := by
  simp only [extendLoop]
  rw [if_pos hy]

theorem extendLoop_cons_new (k y : Nat) (ys nbs : List Nat) (hy : ¬ y ∈ nbs) :
    extendLoop k nbs (y :: ys) =
      if (nbs ++ [y]).length = k then nbs ++ [y] else extendLoop k (nbs ++ [y]) ys := by
  simp only [extendLoop]
  rw [if_neg hy]

theorem extendLoop_reaches (k : Nat) :
    ∀ (cands nbs : List Nat), nbs.length < k →
      (extendLoop k nbs cands).length = k ∨
      ((extendLoop k nbs cands).length < k ∧ ∀ x ∈ cands, x ∈ extendLoop k nbs cands) := by
  intro cands
  induction cands with
  | nil =>
    intro nbs hlen
    exact Or.inr ⟨hlen, by simp⟩
  | cons y ys ih =>
    intro nbs hlen
    by_cases hy : y ∈ nbs
    · rw [extendLoop_cons_mem k y ys nbs hy, if_neg (by omega)]
      rcases ih nbs hlen with h | ⟨h1, h2⟩
      · exact Or.inl h
      · refine Or.inr ⟨h1, fun x hx => ?_⟩
        rcases List.mem_cons.mp hx with rfl | hx
        · obtain ⟨extra, hex⟩ := extendLoop_subset_self k ys nbs
          rw [hex]
          exact List.mem_append.mpr (Or.inl hy)
        · exact h2 x hx
    · rw [extendLoop_cons_new k y ys nbs hy]
      have hl1 : (nbs ++ [y]).length = nbs.length + 1 := by simp
      by_cases hk : (nbs ++ [y]).length = k
      · rw [if_pos hk]
        exact Or.inl hk
      · rw [if_neg hk]
        have hlen2 : (nbs ++ [y]).length < k := by
          rw [hl1] at hk ⊢
          omega
        rcases ih (nbs ++ [y]) hlen2 with h | ⟨h1, h2⟩
        · exact Or.inl h
        · refine Or.inr ⟨h1, fun x hx => ?_⟩
          rcases List.mem_cons.mp hx with rfl | hx
          · obtain ⟨extra, hex⟩ := extendLoop_subset_self k ys (nbs ++ [x])
            rw [hex]
            simp
          · exact h2 x hx

theorem nearestNeighborsMat_spec (k n : Nat) (row : Nat → Nat) (cust : Nat) (hcust : cust < n) :
    (nearestNeighborsMat k n row cust).Nodup ∧
    (nearestNeighborsMat k n row cust).length = min k (n - 1) ∧
    ∀ x ∈ nearestNeighborsMat k n row cust, x ≠ cust ∧ x < n := by
  have hmap : (((List.range n).map (fun j => (row j, j))).map (·.2)) = List.range n := by
    rw [List.map_map]
    exact List.map_id _
  have hperm : ((sortS pairLeB ((List.range n).map (fun j => (row j, j)))).map (·.2)).Perm
      (List.range n) := by
    have hperm0 := (sortS_perm pairLeB ((List.range n).map (fun j => (row j, j)))).map
      (fun x : Nat × Nat => x.2)
    rw [hmap] at hperm0
    exact hperm0
  have hfperm : (((sortS pairLeB ((List.range n).map (fun j => (row j, j)))).map (·.2)).filter
      (fun x => x != cust)).Perm ((List.range n).filter (fun x => x != cust)) :=
    hperm.filter _
  have hF : (List.range n).filter (fun x => x != cust) = (List.range n).erase cust :=
    ((List.nodup_range n).erase_eq_filter cust).symm
  have hFlen : ((List.range n).filter (fun x => x != cust)).length = n - 1 := by
    rw [hF]
    have := List.length_erase_add_one (List.mem_range.mpr hcust)
    rw [List.length_range] at this
    omega
  refine ⟨?_, ?_, ?_⟩
  · refine List.Nodup.sublist (List.take_sublist _ _) ?_
    exact (hfperm.nodup_iff).mpr (hF ▸ (List.nodup_range n).erase cust)
  · rw [nearestNeighborsMat, List.length_take, hfperm.length_eq, hFlen]
  · intro x hx
    have hx2 := List.take_subset _ _ hx
    have hx3 := hfperm.mem_iff.mp hx2
    rw [hF] at hx3
    have hx4 := (List.Nodup.mem_erase_iff (List.nodup_range n)).mp hx3
    exact ⟨hx4.1, List.mem_range.mp hx4.2⟩

/-- C10, claim theorem.  `nearest_neighbors(cust)` raises the
neighbors-unavailable error if and only if `n − 1 < k`; when `n − 1 ≥ k`
it returns exactly `k` pairwise-distinct nodes, none equal to `cust`, in
the order: the sorted MST neighbors first, then the distance-matrix
fallback entries.  `adj` is the customer's MST adjacency (weight, node
pairs): its nodes are distinct, different from `cust`, and in range — true
of any tree on the `n` nodes without self-loops. -/
theorem nearest_neighbors_spec (k n : Nat) (adj : List (Nat × Nat)) (row : Nat → Nat)
    (cust : Nat) (hcust : cust < n)
    (hadj : (adj.map (·.2)).Nodup)
    (hne : ∀ p ∈ adj, p.2 ≠ cust)
    (hlt : ∀ p ∈ adj, p.2 < n) :
    (n - 1 < k → nearestNeighbors k n adj row cust = .error ("Cannot find all neighbors")) ∧
    (k ≤ n - 1 → ∃ l, nearestNeighbors k n adj row cust = .ok l ∧
      l.length = k ∧ l.Nodup ∧ (∀ x ∈ l, x ≠ cust ∧ x < n) ∧
      ∃ rest, l = nearestNeighborsMst k adj ++ rest) := by
  obtain ⟨hmstnd, hmstlen, hmstmem⟩ := nearestNeighborsMst_pre k adj hadj
  obtain ⟨hmatnd, hmatlen, hmatmem⟩ := nearestNeighborsMat_spec k n row cust hcust
  have hmstgood : ∀ x ∈ nearestNeighborsMst k adj, x ≠ cust ∧ x < n := by
    intro x hx
    obtain ⟨p, hp, rfl⟩ := List.mem_map.mp (hmstmem x hx)
    exact ⟨hne p hp, hlt p hp⟩
  have hadjlen : adj.length ≤ n - 1 := by
    have hsub : (adj.map (·.2)).Subperm ((List.range n).erase cust) := by
      refine List.Nodup.subperm hadj ?_
      intro x hx
      obtain ⟨p, hp, rfl⟩ := List.mem_map.mp hx
      exact (List.Nodup.mem_erase_iff (List.nodup_range n)).mpr
        ⟨hne p hp, List.mem_range.mpr (hlt p hp)⟩
    have hl := hsub.length_le
    have h1 := List.length_erase_add_one (List.mem_range.mpr hcust)
    rw [List.length_range] at h1
    rw [List.length_map] at hl
    omega
  constructor
  · -- n - 1 < k: the error is raised
    intro hk
    have hshort : (nearestNeighborsMst k adj).length < k := by omega
    rw [nearestNeighbors]
    rw [if_pos hshort]
    have hresnd : (extendLoop k (nearestNeighborsMst k adj)
        (nearestNeighborsMat k n row cust)).Nodup :=
      extendLoop_nodup k _ _ hmstnd
    have hressub : ∀ x ∈ extendLoop k (nearestNeighborsMst k adj)
        (nearestNeighborsMat k n row cust), x ∈ (List.range n).erase cust := by
      intro x hx
      rcases extendLoop_mem k _ _ x hx with h | h
      · exact (List.Nodup.mem_erase_iff (List.nodup_range n)).mpr
          ⟨(hmstgood x h).1, List.mem_range.mpr (hmstgood x h).2⟩
      · exact (List.Nodup.mem_erase_iff (List.nodup_range n)).mpr
          ⟨(hmatmem x h).1, List.mem_range.mpr (hmatmem x h).2⟩
    have hreslen : (extendLoop k (nearestNeighborsMst k adj)
        (nearestNeighborsMat k n row cust)).length ≤ n - 1 := by
      have hsub := (List.Nodup.subperm hresnd hressub).length_le
      have h1 := List.length_erase_add_one (List.mem_range.mpr hcust)
      rw [List.length_range] at h1
      omega
    rw [if_pos (by omega)]
  · -- k ≤ n - 1: exactly k distinct nodes are returned
    intro hk
    rw [nearestNeighbors]
    by_cases hshort : (nearestNeighborsMst k adj).length < k
    · rw [if_pos hshort]
      have hcands : (nearestNeighborsMat k n row cust).length = k := by
        rw [hmatlen]
        omega
      have hres := extendLoop_reaches k (nearestNeighborsMat k n row cust)
        (nearestNeighborsMst k adj) hshort
      have hreslen : (extendLoop k (nearestNeighborsMst k adj)
          (nearestNeighborsMat k n row cust)).length = k := by
        rcases hres with h | ⟨h1, h2⟩
        · exact h
        · exfalso
          have hsub := (List.Nodup.subperm hmatnd h2).length_le
          omega
      rw [if_neg (by omega)]
      refine ⟨_, rfl, hreslen, extendLoop_nodup k _ _ hmstnd, ?_, ?_⟩
      · intro x hx
        rcases extendLoop_mem k _ _ x hx with h | h
        · exact hmstgood x h
        · exact hmatmem x h
      · exact extendLoop_subset_self k _ _
    · rw [if_neg hshort]
      have hlen : (nearestNeighborsMst k adj).length = k := by
        rw [hmstlen] at hshort ⊢
        omega
      rw [if_neg (by omega)]
      exact ⟨_, rfl, hlen, hmstnd, hmstgood, [], by simp⟩

/-- C10, witness: a 4-node instance with one MST neighbor for customer 1
and `k = 2 ≤ n − 1`: the fallback completes the list to exactly 2
distinct nodes. -/
theorem nearest_neighbors_spec_witness :
    ((1 : Nat) < 4 ∧ (2 : Nat) ≤ 3) ∧
    (∃ l, nearestNeighbors 2 4 [(5, 2)] (fun j => j) 1 = .ok l ∧
      l.length = 2 ∧ l.Nodup ∧ (∀ x ∈ l, x ≠ 1 ∧ x < 4) ∧
      ∃ rest, l = nearestNeighborsMst 2 [(5, 2)] ++ rest) :=
  ⟨by decide,
    (nearest_neighbors_spec 2 4 [(5, 2)] (fun j => j) 1 (by decide) (by decide)
      (by decide) (by decide)).2 (by decide)⟩

/-! ## Theorems: the dictionary model -/

theorem dictGet_cons (e : Nat × List Nat) (es : Routes) (k : Nat) :
    dictGet (e :: es) k = if e.1 = k then some e.2 else dictGet es k := by
  by_cases h : e.1 = k
  · rw [if_pos h]
    unfold dictGet
    rw [List.find?_cons_of_pos _ (by simpa using h)]
    rfl
  · rw [if_neg h]
    unfold dictGet
    rw [List.find?_cons_of_neg _ (by simpa using h)]

theorem dictGet_mem (rs : Routes) (k : Nat) (r : List Nat) (h : dictGet rs k = some r) :
    (k, r) ∈ rs := by
  induction rs with
  | nil => cases h
  | cons e es ih =>
    rw [dictGet_cons] at h
    by_cases he : e.1 = k
    · rw [if_pos he] at h
      have : e = (k, r) := by
        obtain ⟨e1, e2⟩ := e
        cases h
        simp_all
      simp [this]
    · rw [if_neg he] at h
      exact List.mem_cons_of_mem e (ih h)

theorem dictGet_isSome_iff (rs : Routes) (k : Nat) :
    (dictGet rs k).isSome ↔ k ∈ dictKeys rs := by
  induction rs with
  | nil => simp [dictGet, dictKeys]
  | cons e es ih =>
    rw [dictGet_cons]
    by_cases he : e.1 = k
    · simp [if_pos he, dictKeys, he.symm]
    · simp only [if_neg he, dictKeys, List.map_cons, List.mem_cons, ih, dictKeys]
      constructor
      · intro h; exact Or.inr h
      · rintro (h | h)
        · exact absurd h.symm he
        · exact h

theorem dictGet_set_self (rs : Routes) (k : Nat) (v r : List Nat)
    (h : dictGet rs k = some r) : dictGet (dictSet rs k v) k = some v := by
  induction rs with
  | nil => cases h
  | cons e es ih =>
    rw [dictGet_cons] at h
    by_cases he : e.1 = k
    · show dictGet ((if e.1 = k then (k, v) else e) :: dictSet es k v) k = some v
      rw [if_pos he, dictGet_cons, if_pos rfl]
    · rw [if_neg he] at h
      show dictGet ((if e.1 = k then (k, v) else e) :: dictSet es k v) k = some v
      rw [if_neg he, dictGet_cons, if_neg he]
      exact ih h

theorem dictGet_set_other (rs : Routes) (k k' : Nat) (v : List Nat) (h : k' ≠ k) :
    dictGet (dictSet rs k v) k' = dictGet rs k' := by
  induction rs with
  | nil => rfl
  | cons e es ih =>
    show dictGet ((if e.1 = k then (k, v) else e) :: dictSet es k v) k' = _
    rw [dictGet_cons, dictGet_cons]
    by_cases he : e.1 = k
    · rw [if_pos he]
      rw [if_neg (fun hc : k = k' => h hc.symm), if_neg (fun hc => h (he ▸ hc).symm)]
      exact ih
    · rw [if_neg he]
      by_cases he' : e.1 = k'
      · rw [if_pos he', if_pos he']
      · rw [if_neg he', if_neg he']
        exact ih

theorem dictGet_del_self (rs : Routes) (k : Nat) : dictGet (dictDel rs k) k = none := by
  induction rs with
  | nil => rfl
  | cons e es ih =>
    show dictGet (List.filter _ (e :: es)) k = none
    rw [List.filter_cons]
    by_cases he : e.1 = k
    · rw [if_neg (by simp [he])]
      exact ih
    · rw [if_pos (by simp [he])]
      rw [dictGet_cons, if_neg he]
      exact ih

theorem dictGet_del_other (rs : Routes) (k k' : Nat) (h : k' ≠ k) :
    dictGet (dictDel rs k) k' = dictGet rs k' := by
  induction rs with
  | nil => rfl
  | cons e es ih =>
    show dictGet (List.filter _ (e :: es)) k' = _
    rw [List.filter_cons, dictGet_cons]
    by_cases he : e.1 = k
    · rw [if_neg (by simp [he]), if_neg (fun hc => h (he ▸ hc).symm)]
      exact ih
    · rw [if_pos (by simp [he]), dictGet_cons]
      by_cases he' : e.1 = k'
      · rw [if_pos he', if_pos he']
      · rw [if_neg he', if_neg he']
        exact ih

theorem dictGet_append_self (rs : Routes) (k : Nat) (v : List Nat)
    (h : dictGet rs k = none) : dictGet (dictAppend rs k v) k = some v := by
  induction rs with
  | nil => simp [dictAppend, dictGet_cons]
  | cons e es ih =>
    rw [dictGet_cons] at h
    by_cases he : e.1 = k
    · rw [if_pos he] at h; cases h
    · rw [if_neg he] at h
      show dictGet (e :: (es ++ [(k, v)])) k = some v
      rw [dictGet_cons, if_neg he]
      exact ih h

theorem dictGet_append_other (rs : Routes) (k k' : Nat) (v : List Nat) (h : k' ≠ k) :
    dictGet (dictAppend rs k v) k' = dictGet rs k' := by
  induction rs with
  | nil =>
    show dictGet [(k, v)] k' = none
    rw [dictGet_cons, if_neg (fun hc : k = k' => h hc.symm)]
    rfl
  | cons e es ih =>
    show dictGet (e :: (es ++ [(k, v)])) k' = _
    rw [dictGet_cons, dictGet_cons]
    by_cases he : e.1 = k'
    · rw [if_pos he, if_pos he]
    · rw [if_neg he, if_neg he]
      exact ih

theorem dictKeys_set (rs : Routes) (k : Nat) (v : List Nat) :
    dictKeys (dictSet rs k v) = dictKeys rs := by
  induction rs with
  | nil => rfl
  | cons e es ih =>
    show (if e.1 = k then (k, v) else e).1 :: dictKeys (dictSet es k v) = e.1 :: dictKeys es
    rw [ih]
    by_cases he : e.1 = k
    · rw [if_pos he, he]
    · rw [if_neg he]

theorem length_dictSet (rs : Routes) (k : Nat) (v : List Nat) :
    (dictSet rs k v).length = rs.length := List.length_map _ _

theorem dictKeys_del (rs : Routes) (k : Nat) :
    dictKeys (dictDel rs k) = (dictKeys rs).filter (fun x => ¬ x == k) := by
  induction rs with
  | nil => rfl
  | cons e es ih =>
    show dictKeys (List.filter _ (e :: es)) = List.filter _ (e.1 :: dictKeys es)
    rw [List.filter_cons, List.filter_cons]
    by_cases he : e.1 = k
    · rw [if_neg (by simp [he]), if_neg (by simp [he])]
      exact ih
    · rw [if_pos (by simp [he]), if_pos (by simp [he])]
      show e.1 :: dictKeys (dictDel es k) = _
      rw [ih]

theorem keysNodup_set (rs : Routes) (k : Nat) (v : List Nat) (h : KeysNodup rs) :
    KeysNodup (dictSet rs k v) := by
  unfold KeysNodup
  rw [dictKeys_set]
  exact h

theorem keysNodup_del (rs : Routes) (k : Nat) (h : KeysNodup rs) :
    KeysNodup (dictDel rs k) := by
  unfold KeysNodup
  rw [dictKeys_del]
  exact h.filter _

theorem dictDel_id (rs : Routes) (k : Nat) (h : ¬ k ∈ dictKeys rs) : dictDel rs k = rs := by
  induction rs with
  | nil => rfl
  | cons e es ih =>
    have h1 : e.1 ≠ k := fun hc => h (by simp [dictKeys, hc])
    have h2 : ¬ k ∈ dictKeys es := fun hc => h (by simp [dictKeys] at hc ⊢; exact Or.inr hc)
    show List.filter _ (e :: es) = e :: es
    rw [List.filter_cons, if_pos (by simp [h1])]
    show e :: dictDel es k = e :: es
    rw [ih h2]

theorem dictSet_id (rs : Routes) (k : Nat) (v : List Nat) (h : ¬ k ∈ dictKeys rs) :
    dictSet rs k v = rs := by
  induction rs with
  | nil => rfl
  | cons e es ih =>
    have h1 : e.1 ≠ k := fun hc => h (by simp [dictKeys, hc])
    have h2 : ¬ k ∈ dictKeys es := fun hc => h (by simp [dictKeys] at hc ⊢; exact Or.inr hc)
    show (if e.1 = k then (k, v) else e) :: dictSet es k v = e :: es
    rw [if_neg h1, ih h2]

theorem routeDemand_append (c : CVRPInstance) (r1 r2 : List Nat) :
    routeDemand c (r1 ++ r2) = routeDemand c r1 + routeDemand c r2 := by
  simp [routeDemand]

theorem routeDemand_perm (c : CVRPInstance) (r1 r2 : List Nat) (h : r1.Perm r2) :
    routeDemand c r1 = routeDemand c r2 :=
  (h.map c.demands).sum_eq

theorem allCustomers_cons (e : Nat × List Nat) (es : Routes) :
    allCustomers (e :: es) = e.2 ++ allCustomers es := rfl

theorem keysNodup_cons (e : Nat × List Nat) (es : Routes) (h : KeysNodup (e :: es)) :
    ¬ e.1 ∈ dictKeys es ∧ KeysNodup es := by
  unfold KeysNodup dictKeys at h ⊢
  rw [List.map_cons, List.nodup_cons] at h
  exact h

theorem allCustomers_extract (rs : Routes) (k : Nat) (r : List Nat)
    (hnd : KeysNodup rs) (h : dictGet rs k = some r) :
    (allCustomers rs).Perm (r ++ allCustomers (dictDel rs k)) ∧
    ∀ v, (allCustomers (dictSet rs k v)).Perm (v ++ allCustomers (dictDel rs k)) := by
  induction rs with
  | nil => cases h
  | cons e es ih =>
    obtain ⟨hk1, hk2⟩ := keysNodup_cons e es hnd
    rw [dictGet_cons] at h
    by_cases he : e.1 = k
    · rw [if_pos he] at h
      have hr : e.2 = r := Option.some.inj h
      have hdel : dictDel (e :: es) k = es := by
        show List.filter _ (e :: es) = es
        rw [List.filter_cons, if_neg (by simp [he])]
        exact dictDel_id es k (he ▸ hk1)
      have hset : ∀ v, dictSet (e :: es) k v = (k, v) :: es := by
        intro v
        show (if e.1 = k then (k, v) else e) :: dictSet es k v = _
        rw [if_pos he, dictSet_id es k v (he ▸ hk1)]
      refine ⟨?_, ?_⟩
      · rw [hdel, allCustomers_cons, hr]
      · intro v
        rw [hset v, hdel, allCustomers_cons]
    · rw [if_neg he] at h
      obtain ⟨ih1, ih2⟩ := ih hk2 h
      have hdel : dictDel (e :: es) k = e :: dictDel es k := by
        show List.filter _ (e :: es) = _
        rw [List.filter_cons, if_pos (by simp [he])]
        rfl
      have hswap : ∀ (w z : List Nat), (e.2 ++ (w ++ z)).Perm (w ++ (e.2 ++ z)) := by
        intro w z
        rw [← List.append_assoc, ← List.append_assoc]
        exact List.perm_append_comm.append_right z
      refine ⟨?_, ?_⟩
      · rw [hdel, allCustomers_cons, allCustomers_cons]
        exact ((ih1.append_left e.2).trans (hswap r _))
      · intro v
        have hset : dictSet (e :: es) k v = e :: dictSet es k v := by
          show (if e.1 = k then (k, v) else e) :: dictSet es k v = _
          rw [if_neg he]
        rw [hset, hdel, allCustomers_cons, allCustomers_cons]
        exact ((ih2 v).append_left e.2).trans (hswap v _)

theorem dictDel_dictSet_self (rs : Routes) (k : Nat) (v : List Nat) :
    dictDel (dictSet rs k v) k = dictDel rs k := by
  induction rs with
  | nil => rfl
  | cons e es ih =>
    show List.filter _ ((if e.1 = k then (k, v) else e) :: dictSet es k v)
      = List.filter _ (e :: es)
    rw [List.filter_cons, List.filter_cons]
    by_cases he : e.1 = k
    · rw [if_pos he, if_neg (by simp), if_neg (by simp [he])]
      exact ih
    · rw [if_neg he, if_pos (by simp [he]), if_pos (by simp [he])]
      show e :: dictDel (dictSet es k v) k = e :: dictDel es k
      rw [ih]

theorem dictDel_dictSet_comm (rs : Routes) (k k' : Nat) (v : List Nat) (h : k ≠ k') :
    dictDel (dictSet rs k' v) k = dictSet (dictDel rs k) k' v := by
  induction rs with
  | nil => rfl
  | cons e es ih =>
    show List.filter _ ((if e.1 = k' then (k', v) else e) :: dictSet es k' v)
      = dictSet (List.filter _ (e :: es)) k' v
    rw [List.filter_cons, List.filter_cons]
    by_cases he : e.1 = k'
    · rw [if_pos he, if_pos (by simp only [decide_eq_true_eq, beq_iff_eq]; exact fun hc => h hc.symm),
        if_pos (by simp only [decide_eq_true_eq, beq_iff_eq]; exact fun hc => h (hc.symm.trans he))]
      show (k', v) :: dictDel (dictSet es k' v) k
        = (if e.1 = k' then (k', v) else e) :: dictSet (dictDel es k) k' v
      rw [if_pos he, ih]
    · rw [if_neg he]
      by_cases hek : e.1 = k
      · rw [if_neg (by simp [hek]), if_neg (by simp [hek])]
        exact ih
      · rw [if_pos (by simp [hek]), if_pos (by simp [hek])]
        show e :: dictDel (dictSet es k' v) k
          = (if e.1 = k' then (k', v) else e) :: dictSet (dictDel es k) k' v
        rw [if_neg he, ih]

theorem dictSet_dictSet_self (rs : Routes) (k : Nat) (v w : List Nat) :
    dictSet (dictSet rs k v) k w = dictSet rs k w := by
  induction rs with
  | nil => rfl
  | cons e es ih =>
    show (if (if e.1 = k then (k, v) else e).1 = k then (k, w)
        else (if e.1 = k then (k, v) else e)) :: dictSet (dictSet es k v) k w
      = (if e.1 = k then (k, w) else e) :: dictSet es k w
    rw [ih]
    by_cases he : e.1 = k
    · rw [if_pos he, if_pos rfl, if_pos he]
    · rw [if_neg he]

theorem dictDel_comm (rs : Routes) (i j : Nat) :
    dictDel (dictDel rs i) j = dictDel (dictDel rs j) i := by
  unfold dictDel
  rw [List.filter_filter, List.filter_filter]
  exact List.filter_congr (fun e _ => by
    cases h1 : e.1 == i <;> cases h2 : e.1 == j <;> simp [h1, h2])

theorem mem_dictSet (rs : Routes) (k : Nat) (v : List Nat) (e : Nat × List Nat)
    (h : e ∈ dictSet rs k v) : e = (k, v) ∨ e ∈ rs := by
  obtain ⟨e0, he0, heq⟩ := List.mem_map.mp h
  by_cases h0 : e0.1 = k
  · rw [if_pos h0] at heq
    exact Or.inl heq.symm
  · rw [if_neg h0] at heq
    exact Or.inr (heq ▸ he0)

theorem mem_dictDel (rs : Routes) (k : Nat) (e : Nat × List Nat)
    (h : e ∈ dictDel rs k) : e ∈ rs :=
  (List.mem_filter.mp h).1

/-! ## Theorems: Clarke-Wright merge pass invariants -/

/-- Invariants through the two reversal write-backs of `combine_routes`. -/
theorem combine_rs1_inv (c : CVRPInstance) (rs : Routes) (i j : Nat)
    (ri0 rj0 ri rj : List Nat)
    (hnd : KeysNodup rs) (hij : i ≠ j)
    (hgi : dictGet rs i = some ri0) (hgj : dictGet rs j = some rj0)
    (hri : ri.Perm ri0) (hrj : rj.Perm rj0)
    (hdem : ∀ e ∈ rs, routeDemand c e.2 ≤ c.capacity) :
    KeysNodup (dictSet (dictSet rs i ri) j rj) ∧
    (allCustomers (dictSet (dictSet rs i ri) j rj)).Perm (allCustomers rs) ∧
    (∀ e ∈ dictSet (dictSet rs i ri) j rj, routeDemand c e.2 ≤ c.capacity) := by
  have hnd1 : KeysNodup (dictSet rs i ri) := keysNodup_set rs i ri hnd
  have hgj1 : dictGet (dictSet rs i ri) j = some rj0 := by
    rw [dictGet_set_other rs i j ri (fun h => hij h.symm)]
    exact hgj
  obtain ⟨hex1, hex1s⟩ := allCustomers_extract rs i ri0 hnd hgi
  obtain ⟨hex2, hex2s⟩ := allCustomers_extract (dictSet rs i ri) j rj0 hnd1 hgj1
  refine ⟨keysNodup_set _ j rj hnd1, ?_, ?_⟩
  · refine ((hex2s rj).trans ((hrj.append_right _).trans hex2.symm)).trans ?_
    exact (hex1s ri).trans ((hri.append_right _).trans hex1.symm)
  · intro e he
    rcases mem_dictSet _ j rj e he with rfl | he1
    · have := hdem (j, rj0) (dictGet_mem rs j rj0 hgj)
      calc routeDemand c rj = routeDemand c rj0 := routeDemand_perm c _ _ hrj
        _ ≤ c.capacity := this
    · rcases mem_dictSet _ i ri e he1 with rfl | he2
      · have := hdem (i, ri0) (dictGet_mem rs i ri0 hgi)
        calc routeDemand c ri = routeDemand c ri0 := routeDemand_perm c _ _ hri
          _ ≤ c.capacity := this
      · exact hdem e he2

/-- The merged state of `combine_routes` in closed form: setting key `i`
twice and deleting `j` equals one set on the `j`-less dictionary. -/
theorem combine_merge_eq (rs : Routes) (i j : Nat) (ri rj w : List Nat) (hij : i ≠ j) :
    dictDel (dictSet (dictSet (dictSet rs i ri) j rj) i w) j
      = dictSet (dictDel rs j) i w := by
  rw [dictDel_dictSet_comm _ j i w hij.symm, dictDel_dictSet_self,
    dictDel_dictSet_comm _ j i ri hij.symm, dictSet_dictSet_self]

/-- Invariants through the merge branch of `combine_routes`. -/
theorem combine_merge_inv (c : CVRPInstance) (rs : Routes) (i j : Nat)
    (ri0 rj0 ri rj : List Nat)
    (hnd : KeysNodup rs) (hij : i ≠ j)
    (hgi : dictGet rs i = some ri0) (hgj : dictGet rs j = some rj0)
    (hri : ri.Perm ri0) (hrj : rj.Perm rj0)
    (hdem : ∀ e ∈ rs, routeDemand c e.2 ≤ c.capacity)
    (hcap : routeDemand c ri + routeDemand c rj ≤ c.capacity) :
    KeysNodup (dictSet (dictDel rs j) i (ri ++ rj)) ∧
    (allCustomers (dictSet (dictDel rs j) i (ri ++ rj))).Perm (allCustomers rs) ∧
    (∀ e ∈ dictSet (dictDel rs j) i (ri ++ rj), routeDemand c e.2 ≤ c.capacity) := by
  have hndd : KeysNodup (dictDel rs j) := keysNodup_del rs j hnd
  have hgdi : dictGet (dictDel rs j) i = some ri0 := by
    rw [dictGet_del_other rs j i hij]
    exact hgi
  have hgdj : dictGet (dictDel rs i) j = some rj0 := by
    rw [dictGet_del_other rs i j hij.symm]
    exact hgj
  obtain ⟨hexi, _⟩ := allCustomers_extract rs i ri0 hnd hgi
  obtain ⟨hexj, _⟩ := allCustomers_extract (dictDel rs i) j rj0 (keysNodup_del rs i hnd) hgdj
  obtain ⟨_, hexd⟩ := allCustomers_extract (dictDel rs j) i ri0 hndd hgdi
  refine ⟨keysNodup_set _ i _ hndd, ?_, ?_⟩
  · have hcomm : dictDel (dictDel rs j) i = dictDel (dictDel rs i) j :=
      dictDel_comm rs j i
    have heq : (ri0 ++ rj0) ++ allCustomers (dictDel (dictDel rs j) i)
        = ri0 ++ (rj0 ++ allCustomers (dictDel (dictDel rs i) j)) := by
      rw [List.append_assoc, hcomm]
    refine ((hexd (ri ++ rj)).trans ((hri.append hrj).append_right _)).trans ?_
    rw [heq]
    exact ((hexj.symm).append_left ri0).trans hexi.symm
  · intro e he
    rcases mem_dictSet _ i (ri ++ rj) e he with rfl | he1
    · show routeDemand c (ri ++ rj) ≤ c.capacity
      rw [routeDemand_append]
      exact hcap
    · exact hdem e (mem_dictDel rs j e he1)

/-- One savings entry preserves the merge-pass invariants: distinct keys,
the customer multiset, and the per-route capacity bound. -/
theorem combineStep_inv (c : CVRPInstance) (rs : Routes) (ent : SEntry)
    (hnd : KeysNodup rs)
    (hdem : ∀ e ∈ rs, routeDemand c e.2 ≤ c.capacity) :
    KeysNodup (combineStep c rs ent) ∧
    (allCustomers (combineStep c rs ent)).Perm (allCustomers rs) ∧
    (∀ e ∈ combineStep c rs ent, routeDemand c e.2 ≤ c.capacity) := by
  obtain ⟨s, i, j⟩ := ent
  cases hgi : dictGet rs i with
  | none =>
    have heq : combineStep c rs (s, i, j) = rs := by
      simp only [combineStep, hgi]
    rw [heq]
    exact ⟨hnd, List.Perm.refl _, hdem⟩
  | some ri0 =>
    cases hgj : dictGet rs j with
    | none =>
      have heq : combineStep c rs (s, i, j) = rs := by
        simp only [combineStep, hgi, hgj]
      rw [heq]
      exact ⟨hnd, List.Perm.refl _, hdem⟩
    | some rj0 =>
      by_cases heqr : ri0 = rj0
      · have heq : combineStep c rs (s, i, j) = rs := by
          simp only [combineStep, hgi, hgj, if_pos heqr]
        rw [heq]
        exact ⟨hnd, List.Perm.refl _, hdem⟩
      · have hij : i ≠ j := by
          intro h
          rw [h, hgj] at hgi
          exact heqr (Option.some.inj hgi).symm
        have hri : (if ri0.head? = some i then ri0.reverse else ri0).Perm ri0 := by
          split
          · exact List.reverse_perm _
          · exact List.Perm.refl _
        have hrj : (if rj0.getLast? = some j then rj0.reverse else rj0).Perm rj0 := by
          split
          · exact List.reverse_perm _
          · exact List.Perm.refl _
        have hA := combine_rs1_inv c rs i j ri0 rj0 _ _ hnd hij hgi hgj hri hrj hdem
        by_cases hcond : (if ri0.head? = some i then ri0.reverse else ri0).getLast? ≠ some i ∨
            (if rj0.getLast? = some j then rj0.reverse else rj0).head? ≠ some j
        · have heq : combineStep c rs (s, i, j) =
              dictSet (dictSet rs i (if ri0.head? = some i then ri0.reverse else ri0)) j
                (if rj0.getLast? = some j then rj0.reverse else rj0) := by
            simp only [combineStep, hgi, hgj, if_neg heqr, if_pos hcond]
          rw [heq]
          exact hA
        · by_cases hcap : c.capacity <
              routeDemand c (if ri0.head? = some i then ri0.reverse else ri0) +
              routeDemand c (if rj0.getLast? = some j then rj0.reverse else rj0)
          · have heq : combineStep c rs (s, i, j) =
                dictSet (dictSet rs i (if ri0.head? = some i then ri0.reverse else ri0)) j
                  (if rj0.getLast? = some j then rj0.reverse else rj0) := by
              simp only [combineStep, hgi, hgj, if_neg heqr, if_neg hcond, if_pos hcap]
            rw [heq]
            exact hA
          · have heq : combineStep c rs (s, i, j) =
                dictDel (dictSet (dictSet (dictSet rs i
                    (if ri0.head? = some i then ri0.reverse else ri0)) j
                    (if rj0.getLast? = some j then rj0.reverse else rj0)) i
                  ((if ri0.head? = some i then ri0.reverse else ri0) ++
                    (if rj0.getLast? = some j then rj0.reverse else rj0))) j := by
              simp only [combineStep, hgi, hgj, if_neg heqr, if_neg hcond, if_neg hcap]
            rw [heq, combine_merge_eq _ i j _ _ _ hij]
            exact combine_merge_inv c rs i j ri0 rj0 _ _ hnd hij hgi hgj hri hrj hdem
              (Nat.le_of_not_lt hcap)

/-- The whole merge pass preserves the invariants. -/
theorem combineRoutes_inv (c : CVRPInstance) (rs : Routes)
    (hnd : KeysNodup rs)
    (hdem : ∀ e ∈ rs, routeDemand c e.2 ≤ c.capacity) :
    KeysNodup (combineRoutes c rs) ∧
    (allCustomers (combineRoutes c rs)).Perm (allCustomers rs) ∧
    (∀ e ∈ combineRoutes c rs, routeDemand c e.2 ≤ c.capacity) := by
  rw [combineRoutes]
  induction loadSavings c generalizing rs with
  | nil => exact ⟨hnd, List.Perm.refl _, hdem⟩
  | cons ent ents ih =>
    rw [List.foldl_cons]
    obtain ⟨h1, h2, h3⟩ := combineStep_inv c rs ent hnd hdem
    obtain ⟨g1, g2, g3⟩ := ih (combineStep c rs ent) h1 h3
    exact ⟨g1, g2.trans h2, g3⟩

theorem initRoutes_inv (c : CVRPInstance) (hwf : c.Wellformed) :
    KeysNodup (initRoutes c) ∧
    allCustomers (initRoutes c) = pyRange 1 c.dimension ∧
    (∀ e ∈ initRoutes c, routeDemand c e.2 ≤ c.capacity) := by
  obtain ⟨-, -, -, hq⟩ := hwf
  refine ⟨?_, ?_, ?_⟩
  · unfold KeysNodup dictKeys initRoutes
    rw [List.map_map]
    have : ((fun e : Nat × List Nat => e.1) ∘ fun k => (k, [k])) = id := rfl
    rw [this, List.map_id]
    exact List.nodup_range' _ _
  · unfold allCustomers initRoutes
    induction pyRange 1 c.dimension with
    | nil => rfl
    | cons k ks ih => simp_all
  · intro e he
    unfold initRoutes at he
    obtain ⟨k, hk, rfl⟩ := List.mem_map.mp he
    rw [pyRange, List.mem_range'_1] at hk
    show routeDemand c [k] ≤ c.capacity
    have : routeDemand c [k] = c.demands k := by simp [routeDemand]
    rw [this]
    exact hq k hk.1 (by omega)

/-! ## Theorems: route reduction -/

theorem routeDemandKey_eq (c : CVRPInstance) (rs : Routes) (k : Nat) (r : List Nat)
    (h : dictGet rs k = some r) : routeDemandKey c rs k = routeDemand c r := by
  rw [routeDemandKey, h]
  rfl

theorem pairwise_true (l : List α) : l.Pairwise (fun _ _ => True) := by
  induction l with
  | nil => exact List.Pairwise.nil
  | cons x xs ih => exact List.pairwise_cons.mpr ⟨fun _ _ => trivial, ih⟩

theorem sortedByDemand_sorted (c : CVRPInstance) (rs : Routes) :
    (sortedByDemand c rs).Pairwise
      (fun a b => routeDemandKey c rs a ≤ routeDemandKey c rs b) := by
  have h := sortS_pairwise
    (fun a b => decide (routeDemandKey c rs a ≤ routeDemandKey c rs b))
    (fun _ _ => True)
    (fun a b => by simpa using le_total (routeDemandKey c rs a) (routeDemandKey c rs b))
    (fun a b d hab hbd => by
      simp only [decide_eq_true_eq] at *
      omega)
    (dictKeys rs) (pairwise_true _)
  exact h.imp (fun hab => by simpa using hab.1)

theorem sortedByDemand_perm (c : CVRPInstance) (rs : Routes) :
    (sortedByDemand c rs).Perm (dictKeys rs) := sortS_perm _ _

/-- The first-fit insertion on a demand-sorted candidate list: when it
succeeds, the chosen route is a fitting one, the customer is appended to
its end, and (because a skipped lighter route would also have fitted) no
candidate route has smaller demand. -/
theorem addCustomer_sorted_min (c : CVRPInstance) (rs : Routes) (cust : Nat) :
    ∀ (ks : List Nat) (rs' : Routes),
      ks.Pairwise (fun a b => routeDemandKey c rs a ≤ routeDemandKey c rs b) →
      addCustomer c rs cust ks = some rs' →
      ∃ k r, k ∈ ks ∧ dictGet rs k = some r ∧
        routeDemand c r + c.demands cust ≤ c.capacity ∧
        rs' = dictSet rs k (r ++ [cust]) ∧
        ∀ k' ∈ ks, routeDemand c r ≤ routeDemandKey c rs k' := by
  intro ks
  induction ks with
  | nil => intro rs' _ h; cases h
  | cons k ks ih =>
    intro rs' hpw h
    obtain ⟨hhead, htail⟩ := List.pairwise_cons.mp hpw
    cases hg : dictGet rs k with
    | none =>
      simp only [addCustomer, hg] at h
      cases h
    | some r =>
      simp only [addCustomer, hg] at h
      by_cases hcap : c.capacity < routeDemand c r + c.demands cust
      · rw [if_pos hcap] at h
        obtain ⟨k', r', hk', hg', hfit', _, _⟩ := ih rs' htail h
        exfalso
        have h1 : routeDemandKey c rs k ≤ routeDemandKey c rs k' := hhead k' hk'
        rw [routeDemandKey_eq c rs k r hg, routeDemandKey_eq c rs k' r' hg'] at h1
        omega
      · rw [if_neg hcap] at h
        refine ⟨k, r, by simp, hg, Nat.le_of_not_lt hcap, (Option.some.inj h).symm, ?_⟩
        intro k' hk'
        rcases List.mem_cons.mp hk' with rfl | hk'
        · rw [routeDemandKey_eq c rs k' r hg]
        · have := hhead k' hk'
          rw [routeDemandKey_eq c rs k r hg] at this
          exact this

/-- C5, amended claim theorem.  During route reduction a customer is
redistributed by trying the remaining routes in ascending order of
**route demand** (stable on ties), appending to the first whose load
permits it; consequently, when the insertion succeeds, the receiving
route has minimal demand among all remaining routes. -/
theorem insertion_min_demand_spec (c : CVRPInstance) (rs : Routes) (cust : Nat) (rs' : Routes)
    (h : addCustomer c rs cust (sortedByDemand c rs) = some rs') :
    ∃ k r, dictGet rs k = some r ∧
      routeDemand c r + c.demands cust ≤ c.capacity ∧
      rs' = dictSet rs k (r ++ [cust]) ∧
      ∀ k' r', dictGet rs k' = some r' → routeDemand c r ≤ routeDemand c r' := by
  obtain ⟨k, r, _, hg, hfit, heq, hmin⟩ :=
    addCustomer_sorted_min c rs cust (sortedByDemand c rs) rs' (sortedByDemand_sorted c rs) h
  refine ⟨k, r, hg, hfit, heq, ?_⟩
  intro k' r' hg'
  have hk' : k' ∈ sortedByDemand c rs := by
    refine (sortedByDemand_perm c rs).mem_iff.mpr ?_
    exact (dictGet_isSome_iff rs k').mp (by rw [hg']; rfl)
  have := hmin k' hk'
  rw [routeDemandKey_eq c rs k' r' hg'] at this
  exact this

/-- C5, counterexample.  Reducing `exRadRoutes` to `K = 2` removes the
singleton route `[1]` and appends customer 1 to route `[2, 3]` — the
remaining route of least demand — although route `[4, 5]` has the
strictly smaller radial load `Σ D[c', 0]` and also fits, so the
claimed radial-load candidate order would have chosen `[4, 5]`. -/
theorem reduction_order_counterexample :
    reduceGo exRad 2 3 exRadRoutes = .ok [(2, [2, 3, 1]), (4, [4, 5])] ∧
    radialSum exRad [4, 5] < radialSum exRad [2, 3] ∧
    routeDemand exRad [4, 5] + exRad.demands 1 ≤ exRad.capacity := by
  exact ⟨rfl, by decide, by decide⟩

/-- C5, witness: the minimal-demand insertion theorem at the
counterexample's insertion step. -/
theorem insertion_min_demand_spec_witness :
    ∃ k r, dictGet [(2, [2, 3]), (4, [4, 5])] k = some r ∧
      routeDemand exRad r + exRad.demands 1 ≤ exRad.capacity ∧
      [(2, [2, 3, 1]), (4, [4, 5])] = dictSet [(2, [2, 3]), (4, [4, 5])] k (r ++ [1]) ∧
      ∀ k' r', dictGet [(2, [2, 3]), (4, [4, 5])] k' = some r' →
        routeDemand exRad r ≤ routeDemand exRad r' :=
  insertion_min_demand_spec exRad [(2, [2, 3]), (4, [4, 5])] 1 [(2, [2, 3, 1]), (4, [4, 5])] rfl

theorem forall₂_refl_ext {R : α → α → Prop} (l : List α) (h : ∀ x ∈ l, R x x) :
    List.Forall₂ R l l := by
  induction l with
  | nil => exact List.Forall₂.nil
  | cons x xs ih => exact List.Forall₂.cons (h x (by simp)) (ih (fun a ha => h a (by simp [ha])))

theorem forall₂_trans_ext {R S T : α → α → Prop}
    (hcomp : ∀ a b d, R a b → S b d → T a d) :
    ∀ l1 l2 l3 : List α, List.Forall₂ R l1 l2 → List.Forall₂ S l2 l3 →
      List.Forall₂ T l1 l3 := by
  intro l1
  induction l1 with
  | nil =>
    intro l2 l3 h12 h23
    cases h12
    cases h23
    exact List.Forall₂.nil
  | cons x xs ih =>
    intro l2 l3 h12 h23
    cases h12 with
    | cons hxy h12' =>
      cases h23 with
      | cons hyz h23' => exact List.Forall₂.cons (hcomp _ _ _ hxy hyz) (ih _ _ h12' h23')

theorem dictSet_forall₂ (rs : Routes) (k : Nat) (r v : List Nat)
    (hnd : KeysNodup rs) (hg : dictGet rs k = some r) :
    List.Forall₂ (fun e e2 : Nat × List Nat => e.1 = e2.1 ∧ (e2 = e ∨ (e.2 = r ∧ e2.2 = v)))
      rs (dictSet rs k v) := by
  induction rs with
  | nil => exact List.Forall₂.nil
  | cons e es ih =>
    obtain ⟨hk1, hk2⟩ := keysNodup_cons e es hnd
    rw [dictGet_cons] at hg
    show List.Forall₂ _ (e :: es) ((if e.1 = k then (k, v) else e) :: dictSet es k v)
    by_cases he : e.1 = k
    · rw [if_pos he] at hg ⊢
      rw [dictSet_id es k v (he ▸ hk1)]
      refine List.Forall₂.cons ⟨he, Or.inr ⟨Option.some.inj hg, rfl⟩⟩ ?_
      exact forall₂_refl_ext es (fun x _ => ⟨rfl, Or.inl rfl⟩)
    · rw [if_neg he] at hg ⊢
      exact List.Forall₂.cons ⟨rfl, Or.inl rfl⟩ (ih hk2 hg)

/-- Each partial insertion only appends a sub-sequence of the processed
customers to the end of each route. -/
theorem addCustomersLoop_forall₂ (c : CVRPInstance) :
    ∀ (custs : List Nat) (rs rs2 : Routes) (b : Bool), KeysNodup rs →
      addCustomersLoop c rs custs = (rs2, b) →
      List.Forall₂ (fun e e2 : Nat × List Nat =>
        e.1 = e2.1 ∧ ∃ extra, e2.2 = e.2 ++ extra ∧ extra.Sublist custs) rs rs2 := by
  intro custs
  induction custs with
  | nil =>
    intro rs rs2 b hnd h
    obtain ⟨rfl, rfl⟩ := Prod.mk.injEq .. ▸ h
    exact forall₂_refl_ext rs (fun e _ => ⟨rfl, [], by simp, List.Sublist.refl _⟩)
  | cons cust rest ih =>
    intro rs rs2 b hnd h
    rw [addCustomersLoop] at h
    cases ha : addCustomer c rs cust (sortedByDemand c rs) with
    | none =>
      rw [ha] at h
      obtain ⟨rfl, rfl⟩ := Prod.mk.injEq .. ▸ h
      exact forall₂_refl_ext rs (fun e _ => ⟨rfl, [], by simp, List.nil_sublist _⟩)
    | some rs' =>
      rw [ha] at h
      obtain ⟨k, r, -, hg, -, heqq, -⟩ := addCustomer_sorted_min c rs cust _ rs'
        (sortedByDemand_sorted c rs) ha
      subst heqq
      have hnd' : KeysNodup (dictSet rs k (r ++ [cust])) := keysNodup_set rs k _ hnd
      have hstep := dictSet_forall₂ rs k r (r ++ [cust]) hnd hg
      have hrest := ih _ rs2 b hnd' h
      refine forall₂_trans_ext ?_ rs _ rs2 hstep hrest
      rintro e e2 e3 ⟨hk1, he2⟩ ⟨hk2, extra, hex, hsub⟩
      refine ⟨hk1.trans hk2, ?_⟩
      rcases he2 with rfl | ⟨her, hev⟩
      · exact ⟨extra, hex, hsub.cons cust⟩
      · refine ⟨cust :: extra, ?_, hsub.cons₂ cust⟩
        rw [hex, hev, her]
        simp

/-- A successful insertion loop adds exactly the processed customers to
the customer multiset. -/
theorem addCustomersLoop_AC (c : CVRPInstance) :
    ∀ (custs : List Nat) (rs rs2 : Routes), KeysNodup rs →
      addCustomersLoop c rs custs = (rs2, false) →
      (allCustomers rs2).Perm (allCustomers rs ++ custs) := by
  intro custs
  induction custs with
  | nil =>
    intro rs rs2 hnd h
    obtain ⟨rfl, -⟩ := Prod.mk.injEq .. ▸ h
    simp
  | cons cust rest ih =>
    intro rs rs2 hnd h
    rw [addCustomersLoop] at h
    cases ha : addCustomer c rs cust (sortedByDemand c rs) with
    | none =>
      rw [ha] at h
      exact absurd (Prod.mk.injEq .. ▸ h).2 (by simp)
    | some rs' =>
      rw [ha] at h
      obtain ⟨k, r, -, hg, -, heqq, -⟩ := addCustomer_sorted_min c rs cust _ rs'
        (sortedByDemand_sorted c rs) ha
      subst heqq
      have hnd' : KeysNodup (dictSet rs k (r ++ [cust])) := keysNodup_set rs k _ hnd
      have hstep : (allCustomers (dictSet rs k (r ++ [cust]))).Perm
          (allCustomers rs ++ [cust]) := by
        obtain ⟨hex, hexs⟩ := allCustomers_extract rs k r hnd hg
        refine (hexs (r ++ [cust])).trans ?_
        have h1 : (r ++ [cust]) ++ allCustomers (dictDel rs k)
            = r ++ ([cust] ++ allCustomers (dictDel rs k)) := by
          rw [List.append_assoc]
        rw [h1]
        refine (List.perm_append_comm.append_left r).trans ?_
        have h2 : r ++ (allCustomers (dictDel rs k) ++ [cust])
            = (r ++ allCustomers (dictDel rs k)) ++ [cust] := by
          rw [List.append_assoc]
        rw [h2]
        exact hex.symm.append_right [cust]
      have hrest := ih _ rs2 hnd' h
      refine hrest.trans ?_
      refine (hstep.append_right rest).trans ?_
      rw [List.append_assoc]
      exact List.Perm.refl _

/-- The insertion loop keeps every route within capacity. -/
theorem addCustomersLoop_demands (c : CVRPInstance) :
    ∀ (custs : List Nat) (rs rs2 : Routes) (b : Bool),
      (∀ e ∈ rs, routeDemand c e.2 ≤ c.capacity) →
      addCustomersLoop c rs custs = (rs2, b) →
      ∀ e ∈ rs2, routeDemand c e.2 ≤ c.capacity := by
  intro custs
  induction custs with
  | nil =>
    intro rs rs2 b hdem h
    obtain ⟨rfl, -⟩ := Prod.mk.injEq .. ▸ h
    exact hdem
  | cons cust rest ih =>
    intro rs rs2 b hdem h
    rw [addCustomersLoop] at h
    cases ha : addCustomer c rs cust (sortedByDemand c rs) with
    | none =>
      rw [ha] at h
      obtain ⟨rfl, -⟩ := Prod.mk.injEq .. ▸ h
      exact hdem
    | some rs' =>
      rw [ha] at h
      obtain ⟨k, r, -, hg, hfit, heqq, -⟩ := addCustomer_sorted_min c rs cust _ rs'
        (sortedByDemand_sorted c rs) ha
      subst heqq
      refine ih _ rs2 b ?_ h
      intro e he
      rcases mem_dictSet rs k _ e he with rfl | he'
      · show routeDemand c (r ++ [cust]) ≤ c.capacity
        rw [routeDemand_append]
        have : routeDemand c [cust] = c.demands cust := by simp [routeDemand]
        rw [this]
        exact hfit
      · exact hdem e he'

/-- The insertion loop never changes the key sequence. -/
theorem addCustomersLoop_keys (c : CVRPInstance) :
    ∀ (custs : List Nat) (rs rs2 : Routes) (b : Bool),
      addCustomersLoop c rs custs = (rs2, b) → dictKeys rs2 = dictKeys rs := by
  intro custs
  induction custs with
  | nil =>
    intro rs rs2 b h
    obtain ⟨rfl, -⟩ := Prod.mk.injEq .. ▸ h
    rfl
  | cons cust rest ih =>
    intro rs rs2 b h
    rw [addCustomersLoop] at h
    cases ha : addCustomer c rs cust (sortedByDemand c rs) with
    | none =>
      rw [ha] at h
      obtain ⟨rfl, -⟩ := Prod.mk.injEq .. ▸ h
      rfl
    | some rs' =>
      rw [ha] at h
      obtain ⟨k, r, -, -, -, heqq, -⟩ := addCustomer_sorted_min c rs cust _ rs'
        (sortedByDemand_sorted c rs) ha
      subst heqq
      rw [ih _ rs2 b h, dictKeys_set]

theorem listRemove_notMem (r : List Nat) (cust : Nat) (h : ¬ cust ∈ r) :
    listRemove r cust = r := by
  induction r with
  | nil => rfl
  | cons x xs ih =>
    show (if x = cust then xs else x :: listRemove xs cust) = x :: xs
    rw [if_neg (fun hc => h (by simp [hc])), ih (fun hc => h (by simp [hc]))]

theorem listRemove_append_notMem (r l : List Nat) (cust : Nat) (h : ¬ cust ∈ r) :
    listRemove (r ++ l) cust = r ++ listRemove l cust := by
  induction r with
  | nil => rfl
  | cons x xs ih =>
    show (if x = cust then xs ++ l else x :: listRemove (xs ++ l) cust) = _
    rw [if_neg (fun hc => h (by simp [hc])), ih (fun hc => h (by simp [hc]))]
    rfl

/-- Removing, in order, every customer of the removed route undoes the
appended insertions exactly. -/
theorem removeList_restore :
    ∀ (custs r extra : List Nat), custs.Nodup → extra.Sublist custs →
      (∀ x ∈ custs, ¬ x ∈ r) →
      custs.foldl listRemove (r ++ extra) = r := by
  intro custs
  induction custs with
  | nil =>
    intro r extra _ hsub _
    rw [List.sublist_nil.mp hsub]
    simp
  | cons cust rest ih =>
    intro r extra hnd hsub hnotin
    obtain ⟨hcr, hrest⟩ := List.nodup_cons.mp hnd
    rw [List.foldl_cons]
    cases hsub with
    | cons a hsub2 =>
      have hce : ¬ cust ∈ extra := fun hc => hcr (hsub2.subset hc)
      rw [listRemove_notMem _ cust
        (fun hc => (List.mem_append.mp hc).elim (hnotin cust (by simp)) hce)]
      exact ih r extra hrest hsub2 (fun x hx => hnotin x (by simp [hx]))
    | cons₂ a hsub2 =>
      rename_i extra2
      rw [listRemove_append_notMem r _ cust (hnotin cust (by simp))]
      rw [show listRemove (cust :: extra2) cust = extra2 from if_pos rfl]
      exact ih r extra2 hrest hsub2 (fun x hx => hnotin x (by simp [hx]))

theorem foldl_removeCustomerAll :
    ∀ (custs : List Nat) (rs : Routes),
      custs.foldl removeCustomerAll rs
        = rs.map (fun e => (e.1, custs.foldl listRemove e.2)) := by
  intro custs
  induction custs with
  | nil =>
    intro rs
    show rs = rs.map (fun e => (e.1, e.2))
    rw [show (fun e : Nat × List Nat => (e.1, e.2)) = id from funext (fun e => rfl),
      List.map_id]
  | cons cust rest ih =>
    intro rs
    rw [List.foldl_cons, ih, removeCustomerAll, List.map_map]
    rfl

theorem map_restore_of_forall₂ (custs : List Nat) (hnd : custs.Nodup) :
    ∀ (l l2 : Routes),
      List.Forall₂ (fun e e2 : Nat × List Nat =>
        e.1 = e2.1 ∧ ∃ extra, e2.2 = e.2 ++ extra ∧ extra.Sublist custs) l l2 →
      (∀ e ∈ l, ∀ x ∈ custs, ¬ x ∈ e.2) →
      l2.map (fun e => (e.1, custs.foldl listRemove e.2)) = l := by
  intro l
  induction l with
  | nil =>
    intro l2 h _
    cases h
    rfl
  | cons e es ih =>
    intro l2 h hdis
    cases h with
    | cons hab h2 =>
      rename_i e2 es2
      obtain ⟨hk, extra, hex, hsub⟩ := hab
      rw [List.map_cons]
      have hhead : (e2.1, custs.foldl listRemove e2.2) = e := by
        obtain ⟨ek, ev⟩ := e
        refine Prod.ext hk.symm ?_
        show custs.foldl listRemove e2.2 = ev
        rw [hex]
        exact removeList_restore custs ev extra hnd hsub (hdis (ek, ev) (by simp))
      rw [hhead, ih es2 h2 (fun e' he' => hdis e' (by simp [he']))]

theorem mem_allCustomers (rs : Routes) (e : Nat × List Nat) (x : Nat)
    (he : e ∈ rs) (hx : x ∈ e.2) : x ∈ allCustomers rs := by
  unfold allCustomers
  rw [List.mem_flatMap]
  exact ⟨e, he, hx⟩

/-- The restoration branch of `reduce_routes` rebuilds the dictionary
exactly: the surviving entries unchanged in place, the removed route
re-appended at the end. -/
theorem restore_exact (c : CVRPInstance) (rs : Routes) (rk : Nat) (rroute : List Nat)
    (rs2 : Routes) (b : Bool)
    (hnd : KeysNodup rs)
    (hACnd : (allCustomers rs).Nodup)
    (hget : dictGet rs rk = some rroute)
    (hloop : addCustomersLoop c (dictDel rs rk) rroute = (rs2, b)) :
    restoreRoutes rs2 rk rroute = dictDel rs rk ++ [(rk, rroute)] := by
  have hndd : KeysNodup (dictDel rs rk) := keysNodup_del _ _ hnd
  have hF2 := addCustomersLoop_forall₂ c rroute (dictDel rs rk) rs2 b hndd hloop
  obtain ⟨hex, -⟩ := allCustomers_extract rs rk rroute hnd hget
  have hACnd2 : (rroute ++ allCustomers (dictDel rs rk)).Nodup := hex.nodup_iff.mp hACnd
  obtain ⟨hrnd, -, hdisj⟩ := List.nodup_append.mp hACnd2
  rw [restoreRoutes, foldl_removeCustomerAll]
  unfold dictAppend
  congr 1
  refine map_restore_of_forall₂ rroute hrnd (dictDel rs rk) rs2 hF2 ?_
  intro e he x hx hxe
  exact hdisj hx (mem_allCustomers _ e x he hxe)

theorem length_dictDel (rs : Routes) (k : Nat) (r : List Nat)
    (hnd : KeysNodup rs) (h : dictGet rs k = some r) :
    (dictDel rs k).length + 1 = rs.length := by
  induction rs with
  | nil => cases h
  | cons e es ih =>
    obtain ⟨hk1, hk2⟩ := keysNodup_cons e es hnd
    rw [dictGet_cons] at h
    show (List.filter _ (e :: es)).length + 1 = es.length + 1
    rw [List.filter_cons]
    by_cases he : e.1 = k
    · rw [if_neg (by simp [he])]
      have : dictDel es k = es := dictDel_id es k (he ▸ hk1)
      show (dictDel es k).length + 1 = es.length + 1
      rw [this]
    · rw [if_pos (by simp [he])]
      rw [if_neg he] at h
      show (e :: dictDel es k).length + 1 = es.length + 1
      rw [List.length_cons, ih hk2 h]

theorem length_eq_keys (rs : Routes) : rs.length = (dictKeys rs).length :=
  (List.length_map _ _).symm

theorem allCustomers_append (l1 l2 : Routes) :
    allCustomers (l1 ++ l2) = allCustomers l1 ++ allCustomers l2 := by
  unfold allCustomers
  rw [List.flatMap_append]

theorem keysNodup_restored (rs : Routes) (k : Nat) (v : List Nat)
    (hnd : KeysNodup rs) (h : dictGet rs k = none) :
    KeysNodup (rs ++ [(k, v)]) := by
  unfold KeysNodup dictKeys
  rw [List.map_append]
  rw [List.nodup_append]
  refine ⟨hnd, by simp, ?_⟩
  intro a ha hb
  simp only [List.map_cons, List.map_nil, List.mem_singleton] at hb
  subst hb
  have : (dictGet rs a).isSome := (dictGet_isSome_iff rs a).mpr ha
  rw [h] at this
  cases this

/-- One `while`-iteration of `reduce_routes`: a successful elimination
keeps the invariants and removes exactly one route; each failed attempt
restores the state exactly before trying the next candidate. -/
theorem tryRemotions_inv (c : CVRPInstance) :
    ∀ (cand : List Nat) (rs rs' : Routes),
      KeysNodup rs → (allCustomers rs).Nodup →
      (∀ e ∈ rs, routeDemand c e.2 ≤ c.capacity) →
      tryRemotions c rs cand = some rs' →
      KeysNodup rs' ∧ (allCustomers rs').Perm (allCustomers rs) ∧
      (∀ e ∈ rs', routeDemand c e.2 ≤ c.capacity) ∧ rs'.length + 1 = rs.length := by
  intro cand
  induction cand with
  | nil =>
    intro rs rs' _ _ _ h
    cases h
  | cons rk rest ih =>
    intro rs rs' hnd hac hdem h
    rw [tryRemotions] at h
    cases hg : dictGet rs rk with
    | none =>
      rw [hg] at h
      exact ih rs rs' hnd hac hdem h
    | some rroute =>
      rw [hg] at h
      replace h : (match addCustomersLoop c (dictDel rs rk) rroute with
          | (rs2, false) => some rs2
          | (rs2, true) => tryRemotions c (restoreRoutes rs2 rk rroute) rest) = some rs' := h
      rcases hl : addCustomersLoop c (dictDel rs rk) rroute with ⟨rs2, b⟩
      rw [hl] at h
      obtain ⟨hex, -⟩ := allCustomers_extract rs rk rroute hnd hg
      have hndd := keysNodup_del rs rk hnd
      have hdemd : ∀ e ∈ dictDel rs rk, routeDemand c e.2 ≤ c.capacity :=
        fun e he => hdem e (mem_dictDel rs rk e he)
      cases b with
      | false =>
        replace h : some rs2 = some rs' := h
        have hrs2 : rs' = rs2 := (Option.some.inj h).symm
        subst hrs2
        have hkeys := addCustomersLoop_keys c rroute _ rs' false hl
        refine ⟨?_, ?_, ?_, ?_⟩
        · unfold KeysNodup
          rw [hkeys]
          exact hndd
        · refine (addCustomersLoop_AC c rroute _ rs' hndd hl).trans ?_
          exact List.perm_append_comm.trans hex.symm
        · exact addCustomersLoop_demands c rroute _ rs' false hdemd hl
        · rw [length_eq_keys rs', hkeys, ← length_eq_keys]
          exact length_dictDel rs rk rroute hnd hg
      | true =>
        replace h : tryRemotions c (restoreRoutes rs2 rk rroute) rest = some rs' := h
        rw [restore_exact c rs rk rroute rs2 true hnd hac hg hl] at h
        have hACr : allCustomers (dictDel rs rk ++ [(rk, rroute)])
            = allCustomers (dictDel rs rk) ++ rroute := by
          rw [allCustomers_append]
          simp [allCustomers]
        have hpr : (allCustomers (dictDel rs rk ++ [(rk, rroute)])).Perm (allCustomers rs) := by
          rw [hACr]
          exact List.perm_append_comm.trans hex.symm
        have hndr : KeysNodup (dictDel rs rk ++ [(rk, rroute)]) :=
          keysNodup_restored _ rk rroute hndd (dictGet_del_self rs rk)
        have hacr : (allCustomers (dictDel rs rk ++ [(rk, rroute)])).Nodup :=
          hpr.nodup_iff.mpr hac
        have hdemr : ∀ e ∈ dictDel rs rk ++ [(rk, rroute)],
            routeDemand c e.2 ≤ c.capacity := by
          intro e he
          rcases List.mem_append.mp he with he | he
          · exact hdemd e he
          · rw [List.mem_singleton.mp he]
            exact hdem (rk, rroute) (dictGet_mem rs rk rroute hg)
        have hlenr : (dictDel rs rk ++ [(rk, rroute)]).length = rs.length := by
          rw [List.length_append, List.length_singleton]
          exact length_dictDel rs rk rroute hnd hg
        obtain ⟨g1, g2, g3, g4⟩ := ih _ rs' hndr hacr hdemr h
        exact ⟨g1, g2.trans hpr, g3, by omega⟩

/-- The reduction loop: when it returns normally the invariants hold and
the final route count is `min (initial count) K`. -/
theorem reduceGo_spec (c : CVRPInstance) (K : Nat) :
    ∀ (fuel : Nat) (rs rs' : Routes),
      KeysNodup rs → (allCustomers rs).Nodup →
      (∀ e ∈ rs, routeDemand c e.2 ≤ c.capacity) →
      reduceGo c K fuel rs = .ok rs' →
      KeysNodup rs' ∧ (allCustomers rs').Perm (allCustomers rs) ∧
      (∀ e ∈ rs', routeDemand c e.2 ≤ c.capacity) ∧ rs'.length = min rs.length K := by
  intro fuel
  induction fuel with
  | zero =>
    intro rs rs' hnd hac hdem h
    rw [reduceGo] at h
    by_cases hlen : rs.length ≤ K
    · rw [if_pos hlen] at h
      obtain rfl : rs = rs' := Except.ok.inj h
      exact ⟨hnd, List.Perm.refl _, hdem, (Nat.min_eq_left hlen).symm⟩
    · rw [if_neg hlen] at h
      replace h : (Except.error ("out of fuel") : Except String Routes) = .ok rs' := h
      exact Except.noConfusion h
  | succ fuel ih =>
    intro rs rs' hnd hac hdem h
    rw [reduceGo] at h
    by_cases hlen : rs.length ≤ K
    · rw [if_pos hlen] at h
      obtain rfl : rs = rs' := Except.ok.inj h
      exact ⟨hnd, List.Perm.refl _, hdem, (Nat.min_eq_left hlen).symm⟩
    · rw [if_neg hlen] at h
      replace h : (match tryRemotions c rs (sortedByLen rs) with
          | none => Except.error ("Cannot reduce the number of routes")
          | some rsn => reduceGo c K fuel rsn) = .ok rs' := h
      cases ht : tryRemotions c rs (sortedByLen rs) with
      | none =>
        rw [ht] at h
        exact Except.noConfusion h
      | some rsn =>
        rw [ht] at h
        obtain ⟨h1, h2, h3, h4⟩ := tryRemotions_inv c _ rs rsn hnd hac hdem ht
        have hacn : (allCustomers rsn).Nodup := h2.nodup_iff.mpr hac
        obtain ⟨g1, g2, g3, g4⟩ := ih rsn rs' h1 hacn h3 h
        refine ⟨g1, g2.trans h2, g3, ?_⟩
        omega

/-- C1, amended claim theorem.  When `ClarkeWright.run` returns normally
on a well-formed instance, the returned collection has exactly
`min(m, K)` routes, where `m` is the route count after the merge pass —
so exactly `K` whenever at least `K` routes survive the merge, but fewer
when the merge pass already went below `K`; the route sequences always
partition the customer set `{1..n-1}`, and every route demand is at most
the capacity. -/
theorem clarke_wright_run_spec (c : CVRPInstance) (K : Nat) (rs : Routes)
    (hwf : c.Wellformed) (h : clarkeWrightRun c K = .ok rs) :
    rs.length = min (combineRoutes c (initRoutes c)).length K ∧
    (allCustomers rs).Perm (pyRange 1 c.dimension) ∧
    (∀ e ∈ rs, routeDemand c e.2 ≤ c.capacity) := by
  obtain ⟨i1, i2, i3⟩ := initRoutes_inv c hwf
  obtain ⟨c1, c2, c3⟩ := combineRoutes_inv c (initRoutes c) i1 i3
  have hpr : (allCustomers (combineRoutes c (initRoutes c))).Perm (pyRange 1 c.dimension) := by
    rw [← i2]
    exact c2
  have hacn : (allCustomers (combineRoutes c (initRoutes c))).Nodup :=
    hpr.nodup_iff.mpr (List.nodup_range' _ _)
  rw [clarkeWrightRun] at h
  obtain ⟨g1, g2, g3, g4⟩ := reduceGo_spec c K _ _ rs c1 hacn c3 h
  exact ⟨g4, g2.trans hpr, g3⟩

/-- C1, counterexample.  On spec scenario (a) with target `K = 2`, the
merge pass already produces the single route `[1, 2]` and `run` returns
normally with 1 ≠ K routes. -/
theorem clarke_wright_count_counterexample :
    clarkeWrightRun exA 2 = .ok [(1, [1, 2])] ∧
    ([(1, [1, 2])] : Routes).length ≠ 2 := by
  exact ⟨rfl, by decide⟩

/-- C1, witness: the run theorem at `exA` with `K = 1`. -/
theorem clarke_wright_run_spec_witness :
    ([(1, [1, 2])] : Routes).length = min (combineRoutes exA (initRoutes exA)).length 1 ∧
    (allCustomers [(1, [1, 2])]).Perm (pyRange 1 exA.dimension) ∧
    (∀ e ∈ ([(1, [1, 2])] : Routes), routeDemand exA e.2 ≤ exA.capacity) := by
  have hwf : exA.Wellformed := by
    refine ⟨?_, ?_, rfl, ?_⟩
    · intro i
      exact if_pos rfl
    · intro i j
      by_cases hab : i = j
      · subst hab; rfl
      · show (if i = j then (0 : Nat) else if (i = 0 ∧ j = 1) ∨ (i = 1 ∧ j = 0) then 3
            else if (i = 0 ∧ j = 2) ∨ (i = 2 ∧ j = 0) then 5
            else if (i = 1 ∧ j = 2) ∨ (i = 2 ∧ j = 1) then 4 else 0)
          = (if j = i then 0 else if (j = 0 ∧ i = 1) ∨ (j = 1 ∧ i = 0) then 3
            else if (j = 0 ∧ i = 2) ∨ (j = 2 ∧ i = 0) then 5
            else if (j = 1 ∧ i = 2) ∨ (j = 2 ∧ i = 1) then 4 else 0)
        rw [if_neg hab, if_neg (fun hc : j = i => hab hc.symm)]
        by_cases h1 : (i = 0 ∧ j = 1) ∨ (i = 1 ∧ j = 0)
        · rw [if_pos h1, if_pos (show (j = 0 ∧ i = 1) ∨ (j = 1 ∧ i = 0) by tauto)]
        · rw [if_neg h1, if_neg (show ¬ ((j = 0 ∧ i = 1) ∨ (j = 1 ∧ i = 0)) by tauto)]
          by_cases h2 : (i = 0 ∧ j = 2) ∨ (i = 2 ∧ j = 0)
          · rw [if_pos h2, if_pos (show (j = 0 ∧ i = 2) ∨ (j = 2 ∧ i = 0) by tauto)]
          · rw [if_neg h2, if_neg (show ¬ ((j = 0 ∧ i = 2) ∨ (j = 2 ∧ i = 0)) by tauto)]
            by_cases h3 : (i = 1 ∧ j = 2) ∨ (i = 2 ∧ j = 1)
            · rw [if_pos h3, if_pos (show (j = 1 ∧ i = 2) ∨ (j = 2 ∧ i = 1) by tauto)]
            · rw [if_neg h3, if_neg (show ¬ ((j = 1 ∧ i = 2) ∨ (j = 2 ∧ i = 1)) by tauto)]
    · intro i h1 h2
      have h2' : i < 3 := h2
      interval_cases i <;> decide
  exact clarke_wright_run_spec exA 1 [(1, [1, 2])] hwf rfl

/-- C8, claim theorem.  A failed elimination attempt is atomic: after the
partial insertions are rolled back and the removed route re-added, every
key maps to exactly the route it had before the attempt; and when the
route count still exceeds `K` but no candidate can be eliminated, the
reduction raises (`ReductionInfeasible`, `Cannot reduce the number of
routes` in the source). -/
theorem reduce_restore_spec (c : CVRPInstance) (rs : Routes) (rk : Nat) (rroute : List Nat)
    (rs2 : Routes) (K fuel : Nat)
    (hnd : KeysNodup rs) (hac : (allCustomers rs).Nodup)
    (hget : dictGet rs rk = some rroute)
    (hloop : addCustomersLoop c (dictDel rs rk) rroute = (rs2, true)) :
    (∀ k, dictGet (restoreRoutes rs2 rk rroute) k = dictGet rs k) ∧
    (K < rs.length → tryRemotions c rs (sortedByLen rs) = none →
      reduceGo c K (fuel + 1) rs = .error ("Cannot reduce the number of routes")) := by
  constructor
  · intro k
    rw [restore_exact c rs rk rroute rs2 true hnd hac hget hloop]
    by_cases hk : k = rk
    · subst hk
      rw [hget]
      exact dictGet_append_self _ _ _ (dictGet_del_self rs k)
    · show dictGet (dictAppend (dictDel rs rk) rk rroute) k = dictGet rs k
      rw [dictGet_append_other _ rk k rroute hk, dictGet_del_other rs rk k hk]
  · intro hK hnone
    rw [reduceGo, if_neg (by omega)]
    show (match tryRemotions c rs (sortedByLen rs) with
        | none => Except.error ("Cannot reduce the number of routes")
        | some rsn => reduceGo c K fuel rsn) = Except.error ("Cannot reduce the number of routes")
    rw [hnone]

/-- C8, witness: on the tight instance no customer of either singleton
route fits elsewhere; the restore is exact and the reduction to `K = 1`
raises. -/
theorem reduce_restore_spec_witness :
    dictGet (restoreRoutes [(2, [2])] 1 [1]) 2 = dictGet exTightRoutes 2 ∧
    reduceGo exTight 1 3 exTightRoutes = .error ("Cannot reduce the number of routes") := by
  have h := reduce_restore_spec exTight exTightRoutes 1 [1] [(2, [2])] 1 2
    (by unfold KeysNodup; decide) (by decide) (by decide) (by decide)
  exact ⟨h.1 2, h.2 (by decide) (by decide)⟩

end CVRP
